import Mathlib

/-!
The backup-set classifier of rsync_backup, `src/main.cpp`.

A shallow embedding of `check_dir` and `prepare_backup` and the properties of
their result.

Modelling conventions.
* A path is the list of its components; `path / name` is `path ++ [name]`.
* The file system is a finite tree of `Node`s.  A directory lists its entries
  in the order in which `fs::directory_iterator` enumerates them; a symbolic
  link carries what it resolves to, which only `fs::is_directory` on a root
  looks at.
* `fs::file_size` throws on an entry that is neither a directory, nor a
  symbolic link, nor a regular file; the exception ends the run, which is the
  result `none` here.
* An `unsigned long` is a natural number below `2^64` (`ULong`), and `+=` on it
  is addition modulo `2^64` (`ulong_add`).
* `std::set<fs::path>` is a `Finset Path`; the roots `srcs` are the list in
  which the set is iterated.
* The text written to `fpr::warn()` is kept as the list `warnings`.
-/

namespace RsyncBackup

/-- An absolute path, as the list of its components. -/
abbrev Path := List String

/-- What the file system holds at a path. -/
inductive Node where
  /-- A regular file with its size in bytes. -/
  | file (size : Nat)
  /-- A fifo, socket or device: not a directory, not a regular file. -/
  | other
  /-- A symbolic link with what it resolves to (`none` when it dangles). -/
  | symlink (target : Option Node)
  /-- A directory with its entries in enumeration order. -/
  | dir (entries : List (String × Node))

/-- The `stem()` of a file name as `std::filesystem::path` computes it: the name
without its last extension; `.` and `..` and names whose only period is the
leading one have no extension. -/
def stem (name : String) : String :=
  if name = "." ∨ name = ".." then name
  else
    match name.data.reverse.dropWhile (fun ch => ch != '.') with
    | [] => name
    | [_] => name
    | _ :: before => String.mk before.reverse

/-- The struct `Config` of the source (lines 19-25); `srcs` in the order in
which the loop of `prepare_backup` visits the set. -/
structure Config where
  srcs : List Path
  dest : Path
  blacklist : Finset Path
  rsync_flags : String

/-- A value of the type `ulong` of the source: a natural number below `2^64`. -/
abbrev ULong := Fin (2 ^ 64)

/-- The `+=` of the source on an `ulong`: addition modulo `2^64`. -/
def ulong_add (a : ULong) (b : Nat) : ULong :=
  ⟨(a.val + b) % 2 ^ 64, Nat.mod_lt _ (by decide)⟩

/-- The struct `BackupInfo` of the source (lines 109-114). -/
structure BackupInfo where
  items : Finset Path
  total_filesize : ULong

/-- The state that `check_dir` works on: the `BackupInfo` it receives by
reference and the warnings written so far (directory and its file size). -/
structure World where
  bi : BackupInfo
  warnings : List (Path × ULong)

/-- The locals of `check_dir` (lines 117-119). -/
structure Locals where
  dir_file_size : ULong
  send_dirs : Finset Path
  mixed_flag : Bool

/-- How the first loop of `check_dir` ends: by `return true` at a `.git`
directory, or by running to the end of the directory. -/
inductive LoopExit where
  | returned (w : World)
  | finished (l : Locals) (w : World)

/-- The constant `large_warning_size` of `check_dir`. -/
def large_warning_size : Nat := 500000000

/-- The warning block of `check_dir` (lines 155-162). -/
def warn_large (path : Path) (dir_file_size : ULong) (w : World) : World :=
  if dir_file_size.val > large_warning_size then
    { w with warnings := w.warnings ++ [(path, dir_file_size)] }
  else w

/-- The second loop of `check_dir` (lines 165-169): the paths of the entries
that are regular files and no symbolic links. -/
def regular_files (path : Path) : List (String × Node) → Finset Path
  | [] => ∅
  | (name, .file _) :: rest => insert (path ++ [name]) (regular_files path rest)
  | (_, .other) :: rest => regular_files path rest
  | (_, .symlink _) :: rest => regular_files path rest
  | (_, .dir _) :: rest => regular_files path rest

mutual
/-- The function `check_dir` of the source (lines 116-174), called on `path`
where the file system holds `node`; the result is the returned `bool` and the
state after the call.  Iterating over something that is no directory throws. -/
def check_dir (blacklist : Finset Path) (path : Path) (node : Node) (w : World) :
    Option (Bool × World) :=
  if path ∈ blacklist then some (true, w)
  else
    match node with
    | .dir entries =>
      match check_loop blacklist path entries ⟨0, ∅, false⟩ w with
      | none => none
      | some (.returned w1) => some (true, w1)
      | some (.finished l w1) =>
        let w2 := warn_large path l.dir_file_size w1
        if l.mixed_flag then
          some (true, { w2 with bi := { w2.bi with
            items := (w2.bi.items ∪ l.send_dirs) ∪ regular_files path entries } })
        else
          some (false, { w2 with bi := { w2.bi with
            total_filesize := ulong_add w2.bi.total_filesize l.dir_file_size.val } })
    | .file _ => none
    | .other => none
    | .symlink _ => none
termination_by structural node
/-- The first loop of `check_dir` (lines 126-154) over the entries still to be
enumerated: a symbolic link is skipped, a directory with stem `.git` ends the
call, any other directory is classified, anything else is sized. -/
def check_loop (blacklist : Finset Path) (path : Path) (entries : List (String × Node))
    (l : Locals) (w : World) : Option LoopExit :=
  match entries with
  | [] => some (.finished l w)
  | (name, c) :: rest =>
    match c with
    | .symlink _ => check_loop blacklist path rest l w
    | .dir sub =>
      if stem name = ".git" then some (.returned w)
      else
        match check_dir blacklist (path ++ [name]) (.dir sub) w with
        | none => none
        | some (true, w1) => check_loop blacklist path rest { l with mixed_flag := true } w1
        | some (false, w1) =>
          check_loop blacklist path rest
            { l with send_dirs := insert (path ++ [name]) l.send_dirs } w1
    | .file size =>
      check_loop blacklist path rest
        { l with dir_file_size := ulong_add l.dir_file_size size } w
    | .other => none
termination_by structural entries
end

/-- Follow a symbolic link to what it names. -/
def Node.resolve : Node → Option Node
  | .symlink none => none
  | .symlink (some t) => t.resolve
  | .file size => some (.file size)
  | .other => some .other
  | .dir entries => some (.dir entries)

/-- What `stat` finds at a path below `root`, links followed. -/
def lookup (root : Node) : Path → Option Node
  | [] => root.resolve
  | name :: rest =>
    match root.resolve with
    | some (.dir entries) =>
      match entries.lookup name with
      | some child => lookup child rest
      | none => none
    | _ => none

/-- The body of the loop of `prepare_backup` for one root (lines 179-185);
`fs::is_directory` follows a link. -/
def prepare_step (root : Node) (blacklist : Finset Path) (src : Path) (w : World) :
    Option World :=
  match lookup root src with
  | some (.dir entries) =>
    match check_dir blacklist src (.dir entries) w with
    | none => none
    | some (true, w1) => some w1
    | some (false, w1) => some { w1 with bi := { w1.bi with items := insert src w1.bi.items } }
  | _ => some { w with bi := { w.bi with items := insert src w.bi.items } }

/-- The loop of `prepare_backup` (line 178) over the roots still to be visited. -/
def prepare_loop (root : Node) (blacklist : Finset Path) : List Path → World → Option World
  | [], w => some w
  | src :: rest, w =>
    match prepare_step root blacklist src w with
    | none => none
    | some w1 => prepare_loop root blacklist rest w1

/-- The state in which `prepare_backup` starts. -/
def World.init : World := ⟨⟨∅, 0⟩, []⟩

/-- The function `prepare_backup` of the source (lines 176-188) over the file
system `root`. -/
def prepare_backup (root : Node) (config : Config) : Option BackupInfo :=
  (prepare_loop root config.blacklist config.srcs World.init).map World.bi

/-! ## Notions used to state the properties -/

/-- The effect `d` of a call, applied to the state `w` the call started in; the
byte counts are added modulo `2^64`. -/
def World.add (w d : World) : World :=
  ⟨⟨w.bi.items ∪ d.bi.items, w.bi.total_filesize + d.bi.total_filesize⟩,
    w.warnings ++ d.warnings⟩

/-- The locals `d` gathered by a part of the loop, joined to earlier locals `l`;
the byte counts are added modulo `2^64`. -/
def Locals.add (l d : Locals) : Locals :=
  ⟨l.dir_file_size + d.dir_file_size, l.send_dirs ∪ d.send_dirs,
    l.mixed_flag || d.mixed_flag⟩

/-- A loop exit moved to the start state `l`, `w`. -/
def LoopExit.shift (l : Locals) (w : World) : LoopExit → LoopExit
  | .returned d => .returned (w.add d)
  | .finished l1 d => .finished (l.add l1) (w.add d)

/-- The state a loop exit leaves. -/
def LoopExit.world : LoopExit → World
  | .returned w => w
  | .finished _ w => w

mutual
/-- The sizes of the regular files at or below a node, summed; directories are
entered, symbolic links are not. -/
def treeBytes : Node → Nat
  | .file size => size
  | .other => 0
  | .symlink _ => 0
  | .dir entries => entriesBytes entries
/-- The sum of `treeBytes` over the entries of a directory. -/
def entriesBytes : List (String × Node) → Nat
  | [] => 0
  | (_, c) :: rest => treeBytes c + entriesBytes rest
end

/-- The sizes of the regular files directly in a directory, summed. -/
def directBytes : List (String × Node) → Nat
  | [] => 0
  | (_, .file size) :: rest => size + directBytes rest
  | (_, .other) :: rest => directBytes rest
  | (_, .symlink _) :: rest => directBytes rest
  | (_, .dir _) :: rest => directBytes rest

mutual
/-- A directory that can be sent as one item: it is not blacklisted and below
it, through directories that are no links, there is no blacklisted directory,
no directory with stem `.git` and no entry whose size cannot be read. -/
def sendable (blacklist : Finset Path) (path : Path) : Node → Bool
  | .dir entries => decide (path ∉ blacklist) && sendableEntries blacklist path entries
  | .file _ => false
  | .other => false
  | .symlink _ => false
/-- Every entry of the directory at `path` lets the directory be sent whole. -/
def sendableEntries (blacklist : Finset Path) (path : Path) :
    List (String × Node) → Bool
  | [] => true
  | (name, c) :: rest =>
    (match c with
      | .file _ => true
      | .symlink _ => true
      | .other => false
      | .dir sub => decide (stem name ≠ ".git") && sendable blacklist (path ++ [name]) (.dir sub))
    && sendableEntries blacklist path rest
end

mutual
/-- The names in every directory of the tree are pairwise different. -/
def Node.wf : Node → Bool
  | .file _ => true
  | .other => true
  | .symlink none => true
  | .symlink (some t) => t.wf
  | .dir entries => decide ((entries.map Prod.fst).Nodup) && entriesWf entries
/-- Every entry of a directory is well formed. -/
def entriesWf : List (String × Node) → Bool
  | [] => true
  | (_, c) :: rest => c.wf && entriesWf rest
end

mutual
/-- Some directory at or below the node, reached through directories that are
no links, has an entry that is a directory with stem `.git`. -/
def hasGit : Node → Bool
  | .dir entries => entriesHaveGit entries
  | .file _ => false
  | .other => false
  | .symlink _ => false
/-- One of the entries is a `.git` directory or has one below it. -/
def entriesHaveGit : List (String × Node) → Bool
  | [] => false
  | (name, c) :: rest =>
    (match c with
      | .dir sub => decide (stem name = ".git") || hasGit (.dir sub)
      | .file _ => false
      | .other => false
      | .symlink _ => false)
    || entriesHaveGit rest
end

mutual
/-- The tree without its symbolic links. -/
def strip : Node → Node
  | .dir entries => .dir (stripEntries entries)
  | .file size => .file size
  | .other => .other
  | .symlink target => .symlink target
/-- The entries of a directory without the symbolic links, at every depth. -/
def stripEntries : List (String × Node) → List (String × Node)
  | [] => []
  | (name, c) :: rest =>
    match c with
    | .symlink _ => stripEntries rest
    | .dir sub => (name, strip (.dir sub)) :: stripEntries rest
    | .file size => (name, .file size) :: stripEntries rest
    | .other => (name, .other) :: stripEntries rest
end

/-- The entry at a relative path below a node, through directories that are no
links. -/
def entryAt : Node → Path → Option Node
  | n, [] => some n
  | .dir entries, name :: rest =>
    match entries.lookup name with
    | some child => entryAt child rest
    | none => none
  | .file _, _ :: _ => none
  | .other, _ :: _ => none
  | .symlink _, _ :: _ => none

/-- The paths that `check_dir`, called on the directory `node` at `path`, can
insert into `items`: the regular files and the sendable directories in a
directory that is not sendable, at any depth below `path`. -/
inductive Promoted (blacklist : Finset Path) : Path → Node → Path → Prop where
  | file {path : Path} {entries : List (String × Node)} {name : String} {size : Nat} :
      sendable blacklist path (.dir entries) = false → path ∉ blacklist →
      (name, Node.file size) ∈ entries →
      Promoted blacklist path (.dir entries) (path ++ [name])
  | whole {path : Path} {entries : List (String × Node)} {name : String}
      {sub : List (String × Node)} :
      sendable blacklist path (.dir entries) = false → path ∉ blacklist →
      (name, Node.dir sub) ∈ entries → stem name ≠ ".git" →
      sendable blacklist (path ++ [name]) (.dir sub) = true →
      Promoted blacklist path (.dir entries) (path ++ [name])
  | deeper {path : Path} {entries : List (String × Node)} {name : String}
      {sub : List (String × Node)} {q : Path} :
      path ∉ blacklist → (name, Node.dir sub) ∈ entries → stem name ≠ ".git" →
      Promoted blacklist (path ++ [name]) (.dir sub) q →
      Promoted blacklist path (.dir entries) q

/-- The byte count of the directory at a path: the sizes of the regular files
below it when the path names a directory, else 0. -/
def dirBytes (root : Node) (q : Path) : Nat :=
  match lookup root q with
  | some (.dir entries) => entriesBytes entries
  | _ => 0

/-- No root is another root or lies below one. -/
def unrelated (srcs : List Path) : Prop :=
  srcs.Pairwise (fun a b => ¬ a <+: b ∧ ¬ b <+: a)

/-- The entries of a directory that holds only regular files. -/
def fileEntries (files : List (String × Nat)) : List (String × Node) :=
  files.map (fun f => (f.1, Node.file f.2))

/-- The file system of the C1 scenario: `/A/B` holds 400 + 600 bytes, `/A/C/x` is
blacklisted, `/A/C/y` has 500 bytes. -/
def c1_fs : Node :=
  .dir [("A", .dir [("B", .dir (fileEntries [("f", 400), ("g", 600)])),
    ("C", .dir [("x", .dir [("z", .file 7)]), ("y", .file 500)])])]

mutual
/-- There is a regular file at or below the node (links are not followed). -/
def hasFile : Node → Bool
  | .file _ => true
  | .other => false
  | .symlink _ => false
  | .dir entries => entriesHaveFile entries
/-- One of the entries is a regular file or has one below it. -/
def entriesHaveFile : List (String × Node) → Bool
  | [] => false
  | (_, c) :: rest => hasFile c || entriesHaveFile rest
end

/-- Directory `/A` with the file `/A/f` of 10 bytes. -/
def c8_fs : Node := .dir [("A", .dir [("f", .file 10)])]

/-- Directory `/A` whose only entry is the directory `/A/x`. -/
def c9_fs : Node := .dir [("A", .dir [("x", .dir [])])]

/-- Directory `/A` that holds `/A/D`, which holds the directory `/A/D/x`. -/
def c10_fs : Node := .dir [("A", .dir [("D", .dir [("x", .dir [])])])]

/-- How a path can come into `items` while `prepare_backup` works on the root
`src`: the root itself when it is no directory, the root itself when it is a
sendable directory, or a path promoted by `check_dir`. -/
inductive ItemOf (root : Node) (blacklist : Finset Path) (src : Path) : Path → Prop where
  | plain : (∀ entries, lookup root src ≠ some (.dir entries)) → ItemOf root blacklist src src
  | whole {entries : List (String × Node)} : lookup root src = some (.dir entries) →
      sendable blacklist src (.dir entries) = true → ItemOf root blacklist src src
  | promoted {entries : List (String × Node)} {q : Path} :
      lookup root src = some (.dir entries) →
      Promoted blacklist src (.dir entries) q → ItemOf root blacklist src q

mutual
/-- The tree below `path` in which every blacklisted directory is empty. -/
def prune (blacklist : Finset Path) (path : Path) : Node → Node
  | .dir entries =>
    if path ∈ blacklist then .dir [] else .dir (pruneEntries blacklist path entries)
  | .file size => .file size
  | .other => .other
  | .symlink target => .symlink target
/-- The entries of the directory at `path`, each pruned. -/
def pruneEntries (blacklist : Finset Path) (path : Path) :
    List (String × Node) → List (String × Node)
  | [] => []
  | (name, c) :: rest =>
    (name, prune blacklist (path ++ [name]) c) :: pruneEntries blacklist path rest
end

/-- Directory `/A` with the blacklisted directory `/A/x` and the blacklisted
regular file `/A/y`. -/
def c3_fs : Node := .dir [("A", .dir [("x", .dir []), ("y", .file 10)])]

/-- The file system `c1_fs` with nothing in the blacklisted `/A/C/x`. -/
def c3_pruned_fs : Node :=
  .dir [("A", .dir [("B", .dir (fileEntries [("f", 400), ("g", 600)])),
    ("C", .dir [("x", .dir []), ("y", .file 500)])])]

/-- Directory `/R` with the directory `/R/.git` and the file `/R/f` of 10 bytes. -/
def c4_fs : Node := .dir [("R", .dir [(".git", .dir []), ("f", .file 10)])]

/-- Directory `/A` with the directory `/A/B`, which holds the file `/A/B/f`. -/
def c5_fs : Node := .dir [("A", .dir [("B", .dir [("f", .file 10)])])]

/-- Directory `/A` with the file `/A/f`, a link `/A/l` to a file, a dangling link
`/A/m`, the directory `/A/D` that holds a link `/A/D/up` back to `/A`, and the
blacklisted directory `/A/x`. -/
def c6_dir : Node :=
  .dir [("f", .file 10), ("l", .symlink (some (.file 99))), ("m", .symlink none),
    ("D", .dir [("up", .symlink (some (.dir [("f", .file 10)]))), ("g", .file 5)]),
    ("x", .dir [])]

/-- The byte count of a node as a directory: the sizes of the regular files
below it when it is a directory, else 0. -/
def nodeBytes : Node → Nat
  | .dir entries => entriesBytes entries
  | .file _ => 0
  | .other => 0
  | .symlink _ => 0

/-- The function `g` gives, at every path below `p` that names an entry of `n`
that is no link, the byte count of that entry as a directory. -/
def Agrees (g : Path → Nat) (p : Path) (n : Node) : Prop :=
  ∀ s m, entryAt n s = some m → m.resolve = some m → g (p ++ s) = nodeBytes m

mutual
/-- The paths of the regular files at or below the node at `path`, through
directories that are no links. -/
def filePaths (path : Path) : Node → Finset Path
  | .file _ => {path}
  | .other => ∅
  | .symlink _ => ∅
  | .dir entries => entriesFilePaths path entries
/-- The paths of the regular files below the directory at `path`. -/
def entriesFilePaths (path : Path) : List (String × Node) → Finset Path
  | [] => ∅
  | (name, c) :: rest => filePaths (path ++ [name]) c ∪ entriesFilePaths path rest
end

/-- The size of the regular file at a path, 0 when there is none. -/
def fileSize (root : Node) (f : Path) : Nat :=
  match lookup root f with
  | some (.file size) => size
  | _ => 0

/-- The regular files that lie, at any depth, under the directory at a path. -/
def filesUnder (root : Node) (q : Path) : Finset Path :=
  match lookup root q with
  | some (.dir entries) => entriesFilePaths q entries
  | _ => ∅

/-- The sum of the sizes of the regular files that lie under the directories in
`items`, each file counted once. -/
def coveredBytes (root : Node) (items : Finset Path) : Nat :=
  ∑ f ∈ items.biUnion (filesUnder root), fileSize root f

/-- A file system with the regular file `/f`, the fifo `/p` and the dangling
link `/l`. -/
def c11_fs : Node := .dir [("f", .file 10), ("p", .other), ("l", .symlink none)]

/-- The size of the regular file at the path `f` below the node `n` at `p`,
0 when there is none. -/
def sizeBelow (p : Path) (n : Node) (f : Path) : Nat :=
  match entryAt n (f.drop p.length) with
  | some (.file size) => size
  | _ => 0

/-- Directory `/A` with the files `/A/f` (3 bytes) and `/A/D/g` (4 bytes). -/
def c14_dir : List (String × Node) := [("f", .file 3), ("D", .dir [("g", .file 4)])]

/-- The entries of a directory in which `B` (with a file of 10 bytes) is
enumerated before `.git`. -/
def git_last : List (String × Node) := [("B", .dir [("f", .file 10)]), (".git", .dir [])]

/-- The entries of the same directory with `.git` enumerated first. -/
def git_first : List (String × Node) := [(".git", .dir []), ("B", .dir [("f", .file 10)])]

/-- The entries of a directory in which `M`, with the blacklisted `M/x` and the
file `M/y`, is enumerated before `.git`. -/
def git_after_mixed : List (String × Node) :=
  [("M", .dir [("x", .dir []), ("y", .file 5)]), (".git", .dir [])]

/-- The entries of a directory `/A` whose child `C` holds the blacklisted `C/x`
and the file `C/y`, and whose child `B` holds a file. -/
def c15_dir : List (String × Node) :=
  [("C", .dir [("x", .dir []), ("y", .file 5)]), ("B", .dir [("f", .file 10)])]

/-- The relative path `s` below the directory `node` at `path` names a regular
file, and every directory on the way to it, `node` included, is not blacklisted
and has no child directory with stem `.git`. -/
inductive Eligible (blacklist : Finset Path) : Path → Node → Path → Prop where
  | here {path : Path} {entries : List (String × Node)} {name : String} {size : Nat} :
      path ∉ blacklist →
      (∀ n sub, (n, Node.dir sub) ∈ entries → stem n ≠ ".git") →
      (name, Node.file size) ∈ entries →
      Eligible blacklist path (.dir entries) [name]
  | step {path : Path} {entries : List (String × Node)} {name : String}
      {sub : List (String × Node)} {s : Path} :
      path ∉ blacklist →
      (∀ n sub, (n, Node.dir sub) ∈ entries → stem n ≠ ".git") →
      (name, Node.dir sub) ∈ entries →
      Eligible blacklist (path ++ [name]) (.dir sub) s →
      Eligible blacklist path (.dir entries) (name :: s)

/-- Three regular files whose sizes sum to `2^64`: two of `2^63 - 1` bytes and
one of 2 bytes. -/
def wrap_files : List (String × Nat) :=
  [("f", 9223372036854775807), ("g", 9223372036854775807), ("h", 2)]

/-- The file system of the C1 scenario with the files of `wrap_files` in
`/A/B`. -/
def c1_wrap_fs : Node :=
  .dir [("A", .dir [("B", .dir (fileEntries wrap_files)),
    ("C", .dir [("x", .dir [("z", .file 7)]), ("y", .file 500)])])]

/-- The entries of a directory with three regular files of `2^63 - 1` bytes
each. -/
def c14_wrap_dir : List (String × Node) :=
  [("f", .file 9223372036854775807), ("g", .file 9223372036854775807),
    ("h", .file 9223372036854775807)]

/-! ## Lemmas -/

/-- Induction over the file-system tree. -/
theorem Node.tree_induct {P : Node → Prop}
    (file : ∀ size, P (.file size)) (other : P .other)
    (symlink : ∀ target, (∀ n, target = some n → P n) → P (.symlink target))
    (dir : ∀ entries, (∀ e ∈ entries, P e.2) → P (.dir entries)) : ∀ n, P n := by
  intro n
  refine @Node.rec P (fun o => ∀ n, o = some n → P n)
    (fun l => ∀ e ∈ l, P e.2) (fun pr => P pr.2)
    file other (fun t h => symlink t h) (fun es h => dir es h) ?_ ?_ ?_ ?_ ?_ n
  · intro n h; cases h
  · intro v hv n h; cases h; exact hv
  · intro e he; cases he
  · intro hd tl hhd htl e he
    rcases List.mem_cons.1 he with rfl | h
    · exact hhd
    · exact htl e h
  · intro fst snd h; exact h

theorem ulong_add_eq (a : ULong) (b : Nat) : ulong_add a b = a + (b : ULong) := by
  apply Fin.ext
  simp [ulong_add, Fin.val_add, Fin.val_natCast, Nat.add_mod]

theorem ulong_add_val (a b : ULong) : ulong_add a b.val = a + b := by
  rw [ulong_add_eq, Fin.cast_val_eq_self]

theorem ulong_val_cast (n : Nat) : ((n : ULong) : Fin (2 ^ 64)).val = n % 2 ^ 64 :=
  Fin.val_natCast n _

theorem ulong_val_add_cast (a : ULong) (n : Nat) :
    (a + (n : ULong)).val = (a.val + n) % 2 ^ 64 := by
  rw [Fin.val_add, Fin.val_natCast, Nat.add_mod_mod]

theorem ulong_val_cast_of_lt (n : Nat) (h : n < 2 ^ 64) : ((n : ULong) : Fin (2 ^ 64)).val = n := by
  rw [Fin.val_natCast, Nat.mod_eq_of_lt h]

theorem World.add_init (w : World) : w.add World.init = w := by
  cases w; simp [World.add, World.init]

theorem warn_large_add (path : Path) (size : ULong) (w d : World) :
    warn_large path size (w.add d) = w.add (warn_large path size d) := by
  unfold warn_large
  split <;> simp [World.add]

theorem check_loop_shift (bl : Finset Path) (path : Path) (entries : List (String × Node))
    (ih : ∀ e ∈ entries, ∀ (p : Path) (w d : World),
      check_dir bl p e.2 (w.add d) = (check_dir bl p e.2 d).map (fun r => (r.1, w.add r.2)))
    (l l1 : Locals) (w d : World) :
    check_loop bl path entries (l.add l1) (w.add d)
      = (check_loop bl path entries l1 d).map (LoopExit.shift l w) := by
  induction entries generalizing l1 d with
  | nil => simp [check_loop, LoopExit.shift]
  | cons e rest ihr =>
    obtain ⟨name, c⟩ := e
    have ihr1 := ihr (fun e he => ih e (List.mem_cons_of_mem _ he))
    cases c with
    | file size =>
      simp only [check_loop]
      rw [← ihr1]
      simp [Locals.add, ulong_add_eq, add_assoc]
    | other => simp [check_loop]
    | symlink t => simp only [check_loop]; exact ihr1 _ _
    | dir sub =>
      simp only [check_loop]
      split
      · simp [LoopExit.shift]
      · have hc := ih (name, .dir sub) (List.mem_cons_self _ _) (path ++ [name]) w d
        simp only at hc
        rw [hc]
        cases hr : check_dir bl (path ++ [name]) (.dir sub) d with
        | none => simp
        | some r =>
          obtain ⟨b, d1⟩ := r
          cases b
          · simp only [Option.map_some']
            rw [← ihr1]
            simp [Locals.add, Finset.union_insert]
          · simp only [Option.map_some']
            rw [← ihr1]
            simp [Locals.add]

theorem check_dir_shift (bl : Finset Path) (n : Node) : ∀ (p : Path) (w d : World),
    check_dir bl p n (w.add d) = (check_dir bl p n d).map (fun r => (r.1, w.add r.2)) := by
  induction n using Node.tree_induct with
  | file size => intro p w d; simp only [check_dir]; split <;> simp
  | other => intro p w d; simp only [check_dir]; split <;> simp
  | symlink t _ => intro p w d; simp only [check_dir]; split <;> simp
  | dir entries ih =>
    intro p w d
    simp only [check_dir]
    split
    · simp
    · have h := check_loop_shift bl p entries ih ⟨0, ∅, false⟩ ⟨0, ∅, false⟩ w d
      have h0 : (⟨0, ∅, false⟩ : Locals).add ⟨0, ∅, false⟩ = ⟨0, ∅, false⟩ := by simp [Locals.add]
      rw [h0] at h
      rw [h]
      cases hr : check_loop bl p entries ⟨0, ∅, false⟩ d with
      | none => simp
      | some r =>
        cases r with
        | returned d1 => simp [LoopExit.shift]
        | finished l1 d1 =>
          simp only [Option.map_some', LoopExit.shift, warn_large_add]
          have hl : (⟨0, ∅, false⟩ : Locals).add l1 = l1 := by cases l1; simp [Locals.add]
          rw [hl]
          split
          · simp [World.add, Finset.union_assoc]
          · simp [World.add, ulong_add_eq, add_assoc]

@[simp] theorem warn_large_bi (path : Path) (size : ULong) (w : World) :
    (warn_large path size w).bi = w.bi := by
  unfold warn_large; split <;> rfl

theorem check_loop_of_sendable (bl : Finset Path) (path : Path)
    (entries : List (String × Node))
    (ih : ∀ e ∈ entries, ∀ (p : Path) (w : World), sendable bl p e.2 = true →
      ∃ w1, check_dir bl p e.2 w = some (false, w1) ∧ w1.bi.items = w.bi.items ∧
        w1.bi.total_filesize = w.bi.total_filesize + (treeBytes e.2 : ULong))
    (h : sendableEntries bl path entries = true) (l : Locals) (w : World) :
    ∃ l1 w1, check_loop bl path entries l w = some (.finished l1 w1) ∧
      l1.mixed_flag = l.mixed_flag ∧
      l1.dir_file_size = l.dir_file_size + (directBytes entries : ULong) ∧
      w1.bi.items = w.bi.items ∧
      w1.bi.total_filesize + (directBytes entries : ULong)
        = w.bi.total_filesize + (entriesBytes entries : ULong) := by
  induction entries generalizing l w with
  | nil => exact ⟨l, w, by simp [check_loop], rfl, by simp [directBytes], rfl,
      by simp [directBytes, entriesBytes]⟩
  | cons e rest ihr =>
    obtain ⟨name, c⟩ := e
    have ihr1 := ihr (fun e he => ih e (List.mem_cons_of_mem _ he))
    cases c with
    | file size =>
      simp only [sendableEntries, Bool.true_and] at h
      obtain ⟨l1, w1, h1, h2, h3, h4, h5⟩ :=
        ihr1 h ⟨ulong_add l.dir_file_size size, l.send_dirs, l.mixed_flag⟩ w
      refine ⟨l1, w1, by simp only [check_loop]; exact h1, h2, ?_, h4, ?_⟩
      · simp only [directBytes]; simp only [ulong_add_eq] at h3; rw [h3]; push_cast; ring
      · simp only [directBytes, entriesBytes, treeBytes]; push_cast
        linear_combination h5
    | other => simp [sendableEntries] at h
    | symlink t =>
      simp only [sendableEntries, Bool.true_and] at h
      obtain ⟨l1, w1, h1, h2, h3, h4, h5⟩ := ihr1 h l w
      refine ⟨l1, w1, by simp only [check_loop]; exact h1, h2, ?_, h4, ?_⟩
      · simp only [directBytes]; exact h3
      · simp only [directBytes, entriesBytes, treeBytes]; push_cast
        linear_combination h5
    | dir sub =>
      simp only [sendableEntries, Bool.and_eq_true, decide_eq_true_eq] at h
      obtain ⟨⟨hgit, hsub⟩, hrest⟩ := h
      obtain ⟨w0, hc, hi0, ht0⟩ := ih (name, .dir sub) (List.mem_cons_self _ _) (path ++ [name]) w hsub
      obtain ⟨l1, w1, h1, h2, h3, h4, h5⟩ :=
        ihr1 hrest ⟨l.dir_file_size, insert (path ++ [name]) l.send_dirs, l.mixed_flag⟩ w0
      refine ⟨l1, w1, ?_, h2, ?_, h4.trans hi0, ?_⟩
      · simp only [check_loop, if_neg hgit]
        simp only at hc
        rw [hc]
        exact h1
      · simp only [directBytes]; exact h3
      · simp only [directBytes, entriesBytes]
        simp only at ht0
        push_cast
        linear_combination h5 + ht0

/-- A sendable directory is classified without failure: `check_dir` returns
`false`, leaves `items` as they are and adds the bytes of the whole tree,
modulo `2^64`. -/
theorem check_dir_of_sendable (bl : Finset Path) (n : Node) : ∀ (p : Path) (w : World),
    sendable bl p n = true →
    ∃ w1, check_dir bl p n w = some (false, w1) ∧ w1.bi.items = w.bi.items ∧
      w1.bi.total_filesize = w.bi.total_filesize + (treeBytes n : ULong) := by
  induction n using Node.tree_induct with
  | file size => intro p w h; simp [sendable] at h
  | other => intro p w h; simp [sendable] at h
  | symlink t _ => intro p w h; simp [sendable] at h
  | dir entries ih =>
    intro p w h
    simp only [sendable, Bool.and_eq_true, decide_eq_true_eq] at h
    obtain ⟨hbl, hes⟩ := h
    obtain ⟨l1, w1, h1, h2, h3, h4, h5⟩ :=
      check_loop_of_sendable bl p entries ih hes ⟨0, ∅, false⟩ w
    simp only at h2 h3
    refine ⟨{ warn_large p l1.dir_file_size w1 with bi :=
      { (warn_large p l1.dir_file_size w1).bi with
        total_filesize := ulong_add (warn_large p l1.dir_file_size w1).bi.total_filesize
          l1.dir_file_size.val } }, ?_, ?_, ?_⟩
    · simp only [check_dir, if_neg hbl, h1, h2]
      rfl
    · simpa using h4
    · simp only [warn_large_bi, treeBytes, ulong_add_val]
      rw [h3]
      linear_combination h5

theorem sendable_of_check_loop (bl : Finset Path) (path : Path)
    (entries : List (String × Node))
    (ih : ∀ e ∈ entries, ∀ (p : Path) (w w1 : World),
      check_dir bl p e.2 w = some (false, w1) → sendable bl p e.2 = true)
    (l l1 : Locals) (w w1 : World)
    (h : check_loop bl path entries l w = some (.finished l1 w1))
    (hm : l1.mixed_flag = false) :
    sendableEntries bl path entries = true ∧ l.mixed_flag = false := by
  induction entries generalizing l w with
  | nil =>
    simp only [check_loop, Option.some.injEq, LoopExit.finished.injEq] at h
    obtain ⟨rfl, rfl⟩ := h
    exact ⟨rfl, hm⟩
  | cons e rest ihr =>
    obtain ⟨name, c⟩ := e
    have ihr1 := ihr (fun e he => ih e (List.mem_cons_of_mem _ he))
    cases c with
    | file size =>
      simp only [check_loop] at h
      obtain ⟨h1, h2⟩ := ihr1 _ _ h
      exact ⟨by simp [sendableEntries, h1], h2⟩
    | other => simp [check_loop] at h
    | symlink t =>
      simp only [check_loop] at h
      obtain ⟨h1, h2⟩ := ihr1 _ _ h
      exact ⟨by simp [sendableEntries, h1], h2⟩
    | dir sub =>
      simp only [check_loop] at h
      split at h
      · simp at h
      · rename_i hgit
        split at h
        · simp at h
        · obtain ⟨_, h2⟩ := ihr1 _ _ h
          simp at h2
        · rename_i w0 hc
          obtain ⟨h1, h2⟩ := ihr1 _ _ h
          have hs := ih (name, .dir sub) (List.mem_cons_self _ _) _ _ _ hc
          simp only at hs
          exact ⟨by simp [sendableEntries, h1, hs, hgit], h2⟩

/-- Only a sendable directory makes `check_dir` return `false`. -/
theorem sendable_of_check_dir (bl : Finset Path) (n : Node) : ∀ (p : Path) (w w1 : World),
    check_dir bl p n w = some (false, w1) → sendable bl p n = true := by
  induction n using Node.tree_induct with
  | file size => intro p w w1 h; simp only [check_dir] at h; split at h <;> simp at h
  | other => intro p w w1 h; simp only [check_dir] at h; split at h <;> simp at h
  | symlink t _ => intro p w w1 h; simp only [check_dir] at h; split at h <;> simp at h
  | dir entries ih =>
    intro p w w1 h
    simp only [check_dir] at h
    split at h
    · simp at h
    · rename_i hbl
      split at h
      · simp at h
      · simp at h
      · rename_i l w0 hl
        split at h
        · simp at h
        · rename_i hm
          have := sendable_of_check_loop bl p entries ih _ l w w0 hl (by simpa using hm)
          simp [sendable, hbl, this.1]

theorem check_loop_fileEntries (bl : Finset Path) (path : Path) (files : List (String × Nat))
    (l : Locals) (w : World) :
    check_loop bl path (fileEntries files) l w
      = some (.finished
          { l with dir_file_size := l.dir_file_size + ((files.map Prod.snd).sum : ULong) } w) := by
  induction files generalizing l with
  | nil => simp [fileEntries, check_loop]
  | cons f rest ih =>
    have := ih { l with dir_file_size := l.dir_file_size + f.2 }
    simp only [fileEntries, List.map_cons, check_loop, ulong_add_eq] at this ⊢
    rw [this]
    simp [add_assoc]

theorem perm_pair {α : Type} {l : List α} {a b : α} (h : l.Perm [a, b]) :
    l = [a, b] ∨ l = [b, a] := by
  have hlen := h.length_eq
  match l, hlen with
  | [x, y], _ =>
    have hx : x ∈ [a, b] := h.subset (List.mem_cons_self _ _)
    have hy : y ∈ [a, b] := h.subset (List.mem_cons_of_mem _ (List.mem_cons_self _ _))
    simp only [List.mem_cons, List.mem_singleton, List.not_mem_nil, or_false] at hx hy
    rcases hx with rfl | rfl
    · left
      have := (List.perm_cons x).1 h
      rw [List.perm_singleton.1 this]
    · right
      have h2 : [x, y].Perm [x, a] := h.trans (List.Perm.swap _ _ _)
      have := (List.perm_cons x).1 h2
      rw [List.perm_singleton.1 this]

/-- C1 (amended): a root `A` that holds the directory `B` of regular files and
the directory `C` with the blacklisted directory `C/x` and the regular file
`C/y` yields `items = {B, C/y}`, in whatever order the entries are enumerated,
and `total_filesize` is the sum of the sizes of the files of `B` modulo `2^64`
(the size of `C/y` not included): the sum itself when it is below `2^64`. -/
theorem c1_split_scenario (fs : Node) (config : Config) (A : Path) (b c x y : String)
    (filesB : List (String × Nat)) (subX entriesA entriesC : List (String × Node))
    (sizeY : Nat)
    (hroots : config.srcs = [A])
    (hA : lookup fs A = some (.dir entriesA))
    (hAB : entriesA.Perm [(b, .dir (fileEntries filesB)), (c, .dir entriesC)])
    (hC : entriesC.Perm [(x, .dir subX), (y, .file sizeY)])
    (hblA : A ∉ config.blacklist) (hblB : A ++ [b] ∉ config.blacklist)
    (hblC : A ++ [c] ∉ config.blacklist) (hblX : A ++ [c, x] ∈ config.blacklist)
    (hgb : stem b ≠ ".git") (hgc : stem c ≠ ".git") (hgx : stem x ≠ ".git") :
    ∃ bi, prepare_backup fs config = some bi ∧
      bi.items = {A ++ [b], A ++ [c, y]} ∧
      bi.total_filesize.val = (filesB.map Prod.snd).sum % 2 ^ 64 ∧
      ((filesB.map Prod.snd).sum < 2 ^ 64 →
        bi.total_filesize.val = (filesB.map Prod.snd).sum) := by
  suffices key : prepare_backup fs config
      = some ⟨{A ++ [b], A ++ [c, y]}, ((filesB.map Prod.snd).sum : ULong)⟩ from
    ⟨_, key, rfl, ulong_val_cast _, fun h => ulong_val_cast_of_lt _ h⟩
  have hCy : ∀ w : World, check_dir config.blacklist (A ++ [c]) (.dir entriesC) w
      = some (true, { warn_large (A ++ [c]) sizeY w with bi :=
          ⟨w.bi.items ∪ {A ++ [c, y]}, w.bi.total_filesize⟩ }) := by
    intro w
    rcases perm_pair hC with rfl | rfl
    · simp [check_dir, check_loop, hblC, hblX, hgx, regular_files, ulong_add_eq]
    · simp [check_dir, check_loop, hblC, hblX, hgx, regular_files, ulong_add_eq]
  have hB : ∀ w : World, check_dir config.blacklist (A ++ [b]) (.dir (fileEntries filesB)) w
      = some (false, { warn_large (A ++ [b]) (filesB.map Prod.snd).sum w with bi :=
          ⟨w.bi.items, w.bi.total_filesize + (filesB.map Prod.snd).sum⟩ }) := by
    intro w
    simp [check_dir, check_loop_fileEntries, hblB, ulong_add_eq]
  unfold prepare_backup
  rw [hroots]
  rcases perm_pair hAB with rfl | rfl
  · simp only [prepare_loop, prepare_step, hA]
    rw [check_dir]
    simp [check_loop, hblA, hgb, hgc, hB, hCy, regular_files, World.init, Finset.pair_comm]
    exact (Finset.insert_eq _ _).symm
  · simp only [prepare_loop, prepare_step, hA]
    rw [check_dir]
    simp [check_loop, hblA, hgb, hgc, hB, hCy, regular_files, World.init, Finset.pair_comm]
    exact (Finset.insert_eq _ _).symm


/-- C1 at the scenario of the specification. -/
theorem c1_split_scenario_witness :
    ∃ bi, prepare_backup c1_fs ⟨[["A"]], ["backup"], {["A", "C", "x"]}, "-a"⟩ = some bi ∧
      bi.items = {["A", "B"], ["A", "C", "y"]} ∧
      bi.total_filesize.val = ([("f", 400), ("g", 600)].map Prod.snd).sum % 2 ^ 64 ∧
      (([("f", 400), ("g", 600)].map Prod.snd).sum < 2 ^ 64 →
        bi.total_filesize.val = ([("f", 400), ("g", 600)].map Prod.snd).sum) :=
  c1_split_scenario c1_fs ⟨[["A"]], ["backup"], {["A", "C", "x"]}, "-a"⟩ ["A"] "B" "C" "x" "y"
    [("f", 400), ("g", 600)] [("z", .file 7)] _ _ 500 rfl rfl (List.Perm.refl _)
    (List.Perm.refl _) (by decide) (by decide) (by decide) (by decide) (by decide)
    (by decide) (by decide)

/-- C1, counterexample: in the scenario with files of `2^63 - 1`, `2^63 - 1` and
2 bytes in `B` the items are `{B, C/y}`, but `total_filesize` is 0 and not the
sum `2^64` of the sizes of the files of `B`: the `unsigned long` accumulator
wraps. -/
theorem c1_total_wraps :
    ∃ bi, prepare_backup c1_wrap_fs ⟨[["A"]], ["backup"], {["A", "C", "x"]}, "-a"⟩ = some bi ∧
      bi.items = {["A", "B"], ["A", "C", "y"]} ∧
      bi.total_filesize.val = 0 ∧
      (wrap_files.map Prod.snd).sum = 18446744073709551616 :=
  ⟨_, rfl, by decide, by decide, by decide⟩

theorem check_loop_dir_file_size (bl : Finset Path) (path : Path)
    (entries : List (String × Node)) (l l1 : Locals) (w w1 : World)
    (h : check_loop bl path entries l w = some (.finished l1 w1)) :
    l1.dir_file_size = l.dir_file_size + (directBytes entries : ULong) := by
  induction entries generalizing l w with
  | nil =>
    simp only [check_loop, Option.some.injEq, LoopExit.finished.injEq] at h
    obtain ⟨rfl, rfl⟩ := h
    simp [directBytes]
  | cons e rest ihr =>
    obtain ⟨name, c⟩ := e
    cases c with
    | file size =>
      simp only [check_loop] at h
      have := ihr _ _ h
      simp only [directBytes]; simp only [ulong_add_eq] at this; rw [this]; push_cast; ring
    | other => simp [check_loop] at h
    | symlink t =>
      simp only [check_loop] at h
      simpa [directBytes] using ihr _ _ h
    | dir sub =>
      simp only [check_loop] at h
      split at h
      · simp at h
      · split at h
        · simp at h
        · simpa [directBytes] using ihr _ _ h
        · simpa [directBytes] using ihr _ _ h

theorem treeBytes_of_no_file (n : Node) : hasFile n = false → treeBytes n = 0 := by
  induction n using Node.tree_induct with
  | file size => intro h; simp [hasFile] at h
  | other => intro _; simp [treeBytes]
  | symlink t _ => intro _; simp [treeBytes]
  | dir entries ih =>
    intro h
    simp only [hasFile] at h
    simp only [treeBytes]
    induction entries with
    | nil => simp [entriesBytes]
    | cons e rest ihr =>
      obtain ⟨name, c⟩ := e
      simp only [entriesHaveFile, Bool.or_eq_false_iff] at h
      simp only [entriesBytes]
      rw [ih (name, c) (List.mem_cons_self _ _) h.1,
        ihr (fun e he => ih e (List.mem_cons_of_mem _ he)) h.2]

theorem check_loop_all_blacklisted (bl : Finset Path) (path : Path)
    (entries : List (String × Node))
    (hall : ∀ e ∈ entries, (∃ sub, e.2 = .dir sub) ∧ path ++ [e.1] ∈ bl)
    (l : Locals) (w : World) :
    check_loop bl path entries l w = some (.returned w) ∨
    check_loop bl path entries l w
      = some (.finished { l with mixed_flag := l.mixed_flag || !entries.isEmpty } w) := by
  induction entries generalizing l with
  | nil => right; simp [check_loop]
  | cons e rest ihr =>
    obtain ⟨name, c⟩ := e
    obtain ⟨⟨sub, hsub⟩, hbl⟩ := hall (name, c) (List.mem_cons_self _ _)
    simp only at hsub hbl
    subst hsub
    simp only [check_loop]
    split
    · left; rfl
    · have hc : check_dir bl (path ++ [name]) (.dir sub) w = some (true, w) := by
        simp [check_dir, hbl]
      rw [hc]
      simp only
      rcases ihr (fun e he => hall e (List.mem_cons_of_mem _ he))
        { l with mixed_flag := true } with h | h
      · left; exact h
      · right; rw [h]; simp

/-- C7, counterexample: `check_dir` on the empty directory `/A` returns `false`,
where the claim asks for `true`. -/
theorem c7_empty_directory_returns_false :
    (check_dir ∅ ["A"] (.dir []) World.init).map Prod.fst = some false := by
  rfl

/-- C7, amended: for a directory that is not blacklisted, `check_dir` returns
`false` exactly when its loop runs to the end with the mixed flag unset; the
accumulated `dir_file_size` is then the sum of the sizes of the direct regular
files modulo `2^64`, it is added to `total_filesize` modulo `2^64`, and `items`
is left as it is; it returns `true` when the loop ends with the mixed flag set,
having inserted `send_dirs` and the direct regular files into `items`, or when
the loop leaves at a `.git` directory; on an empty directory it returns
`false`. -/
theorem c7_return_value (bl : Finset Path) (path : Path) (entries : List (String × Node))
    (w : World) (hbl : path ∉ bl) :
    (∀ b w1, check_dir bl path (.dir entries) w = some (b, w1) →
      (b = false ↔ ∃ l w0, check_loop bl path entries ⟨0, ∅, false⟩ w
          = some (.finished l w0) ∧ l.mixed_flag = false)) ∧
    (∀ l w0, check_loop bl path entries ⟨0, ∅, false⟩ w = some (.finished l w0) →
      ∃ b w1, check_dir bl path (.dir entries) w = some (b, w1) ∧
        l.dir_file_size.val = directBytes entries % 2 ^ 64 ∧
        (l.mixed_flag = false → b = false ∧ w1.bi.items = w0.bi.items ∧
          w1.bi.total_filesize = ulong_add w0.bi.total_filesize l.dir_file_size.val ∧
          w1.bi.total_filesize.val
            = (w0.bi.total_filesize.val + directBytes entries) % 2 ^ 64) ∧
        (l.mixed_flag = true → b = true ∧
          w1.bi.items = (w0.bi.items ∪ l.send_dirs) ∪ regular_files path entries ∧
          w1.bi.total_filesize = w0.bi.total_filesize)) ∧
    (∀ w0, check_loop bl path entries ⟨0, ∅, false⟩ w = some (.returned w0) →
      check_dir bl path (.dir entries) w = some (true, w0)) ∧
    check_dir bl path (.dir []) w = some (false, w) := by
  refine ⟨?_, ?_, ?_, ?_⟩
  · intro b w1 h
    simp only [check_dir, if_neg hbl] at h
    cases hl : check_loop bl path entries ⟨0, ∅, false⟩ w with
    | none => rw [hl] at h; simp at h
    | some r =>
      rw [hl] at h
      cases r with
      | returned w0 =>
        simp only [Option.some.injEq, Prod.mk.injEq] at h
        simp [← h.1]
      | finished l w0 =>
        simp only at h
        cases hm : l.mixed_flag with
        | false =>
          simp only [hm, Bool.false_eq_true, if_false, Option.some.injEq, Prod.mk.injEq] at h
          simp [← h.1, hm]
        | true =>
          simp only [hm, if_true, Option.some.injEq, Prod.mk.injEq] at h
          simp [← h.1, hm]
  · intro l w0 hl
    have hsize := check_loop_dir_file_size bl path entries _ l w w0 hl
    simp only [zero_add] at hsize
    have hval : l.dir_file_size.val = directBytes entries % 2 ^ 64 := by
      rw [hsize]; exact ulong_val_cast _
    cases hm : l.mixed_flag with
    | false =>
      refine ⟨false, _, by simp only [check_dir, if_neg hbl, hl, hm]; rfl, hval, ?_, by simp⟩
      intro _
      refine ⟨rfl, by simp, by simp, ?_⟩
      simp only [warn_large_bi, ulong_add_val, hsize]
      exact ulong_val_add_cast _ _
    | true =>
      refine ⟨true, _, by simp only [check_dir, if_neg hbl, hl, hm]; rfl, hval, by simp, ?_⟩
      intro _
      simp
  · intro w0 hl
    simp only [check_dir, if_neg hbl, hl]
  · simp [check_dir, hbl, check_loop, warn_large, large_warning_size, ulong_add_eq]

/-- C7 amended, at the empty directory `/A`, which is not blacklisted. -/
theorem c7_return_value_witness :
    ["A"] ∉ (∅ : Finset Path) ∧
    check_dir ∅ ["A"] (.dir []) World.init = some (false, World.init) :=
  ⟨by decide, (c7_return_value ∅ ["A"] [] World.init (by decide)).2.2.2⟩

theorem mem_regular_files (path : Path) (entries : List (String × Node)) (q : Path) :
    q ∈ regular_files path entries ↔
      ∃ name size, (name, Node.file size) ∈ entries ∧ q = path ++ [name] := by
  induction entries with
  | nil => simp [regular_files]
  | cons e rest ih =>
    obtain ⟨name, c⟩ := e
    cases c with
    | file size =>
      simp only [regular_files, Finset.mem_insert, ih, List.mem_cons, Prod.mk.injEq,
        Node.file.injEq]
      constructor
      · rintro (rfl | ⟨n, s, h, rfl⟩)
        · exact ⟨name, size, Or.inl ⟨rfl, rfl⟩, rfl⟩
        · exact ⟨n, s, Or.inr h, rfl⟩
      · rintro ⟨n, s, (⟨rfl, rfl⟩ | h), rfl⟩
        · exact Or.inl rfl
        · exact Or.inr ⟨n, s, h, rfl⟩
    | other => simp [regular_files, ih]
    | symlink t => simp [regular_files, ih]
    | dir sub => simp [regular_files, ih]

theorem sendable_false_of_child (bl : Finset Path) (path : Path)
    (entries : List (String × Node)) (name : String) (sub : List (String × Node))
    (hmem : (name, Node.dir sub) ∈ entries)
    (h : sendable bl (path ++ [name]) (.dir sub) = false) :
    sendable bl path (.dir entries) = false := by
  have key : ∀ es : List (String × Node), (name, Node.dir sub) ∈ es →
      sendableEntries bl path es = false := by
    intro es
    induction es with
    | nil => intro hm; cases hm
    | cons e rest ih =>
      intro hm
      rcases List.mem_cons.1 hm with he | hm1
      · subst he
        simp [sendableEntries, h]
      · obtain ⟨n1, c1⟩ := e
        have hr := ih hm1
        cases c1 <;> simp only [sendableEntries, hr, Bool.and_false]
  have := key entries hmem
  simp [sendable, this]

theorem Promoted.not_sendable {bl : Finset Path} {p q : Path} {n : Node}
    (h : Promoted bl p n q) : sendable bl p n = false := by
  induction h with
  | file hs _ _ => exact hs
  | whole hs _ _ _ _ => exact hs
  | deeper _ hmem _ _ ih => exact sendable_false_of_child bl _ _ _ _ hmem ih

theorem check_dir_true_not_sendable (bl : Finset Path) (p : Path) (n : Node) (w w1 : World)
    (h : check_dir bl p n w = some (true, w1)) : sendable bl p n = false := by
  cases hs : sendable bl p n with
  | false => rfl
  | true =>
    obtain ⟨w2, h2, _⟩ := check_dir_of_sendable bl n p w hs
    rw [h2] at h
    simp at h

theorem check_dir_false_items (bl : Finset Path) (p : Path) (n : Node) (w w1 : World)
    (h : check_dir bl p n w = some (false, w1)) :
    w1.bi.items = w.bi.items ∧
      w1.bi.total_filesize = w.bi.total_filesize + (treeBytes n : ULong) := by
  obtain ⟨w2, h2, h3, h4⟩ :=
    check_dir_of_sendable bl n p w (sendable_of_check_dir bl n p w w1 h)
  rw [h2] at h
  simp only [Option.some.injEq, Prod.mk.injEq, true_and] at h
  subst h
  exact ⟨h3, h4⟩

theorem check_loop_items (bl : Finset Path) (path : Path) (entries : List (String × Node))
    (ih : ∀ e ∈ entries, ∀ (p : Path) (w : World) (b : Bool) (w1 : World),
      check_dir bl p e.2 w = some (b, w1) →
      ∀ q ∈ w1.bi.items, q ∈ w.bi.items ∨ Promoted bl p e.2 q)
    (l : Locals) (w : World) (exit : LoopExit)
    (h : check_loop bl path entries l w = some exit) :
    (∀ q ∈ exit.world.bi.items, q ∈ w.bi.items ∨
      ∃ name sub, (name, Node.dir sub) ∈ entries ∧ stem name ≠ ".git" ∧
        Promoted bl (path ++ [name]) (.dir sub) q) ∧
    (∀ l1 w1, exit = .finished l1 w1 → ∀ q ∈ l1.send_dirs, q ∈ l.send_dirs ∨
      ∃ name sub, (name, Node.dir sub) ∈ entries ∧ stem name ≠ ".git" ∧
        sendable bl (path ++ [name]) (.dir sub) = true ∧ q = path ++ [name]) := by
  induction entries generalizing l w with
  | nil =>
    simp only [check_loop, Option.some.injEq] at h
    subst h
    exact ⟨fun q hq => Or.inl hq, fun l1 w1 he q hq => by cases he; exact Or.inl hq⟩
  | cons e rest ihr =>
    obtain ⟨name, c⟩ := e
    have ihr1 := ihr (fun e he => ih e (List.mem_cons_of_mem _ he))
    have lift : ∀ (l0 : Locals) (w0 : World),
        check_loop bl path rest l0 w0 = some exit →
        (∀ q ∈ w0.bi.items, q ∈ w.bi.items ∨
          ∃ name1 sub, (name1, Node.dir sub) ∈ (name, c) :: rest ∧ stem name1 ≠ ".git" ∧
            Promoted bl (path ++ [name1]) (.dir sub) q) →
        (∀ q ∈ l0.send_dirs, q ∈ l.send_dirs ∨
          ∃ name1 sub, (name1, Node.dir sub) ∈ (name, c) :: rest ∧ stem name1 ≠ ".git" ∧
            sendable bl (path ++ [name1]) (.dir sub) = true ∧ q = path ++ [name1]) →
        (∀ q ∈ exit.world.bi.items, q ∈ w.bi.items ∨
          ∃ name1 sub, (name1, Node.dir sub) ∈ (name, c) :: rest ∧ stem name1 ≠ ".git" ∧
            Promoted bl (path ++ [name1]) (.dir sub) q) ∧
        (∀ l1 w1, exit = .finished l1 w1 → ∀ q ∈ l1.send_dirs, q ∈ l.send_dirs ∨
          ∃ name1 sub, (name1, Node.dir sub) ∈ (name, c) :: rest ∧ stem name1 ≠ ".git" ∧
            sendable bl (path ++ [name1]) (.dir sub) = true ∧ q = path ++ [name1]) := by
      intro l0 w0 h0 hw hl
      obtain ⟨h1, h2⟩ := ihr1 l0 w0 h0
      constructor
      · intro q hq
        rcases h1 q hq with h | ⟨n1, s1, hm, hg, hp⟩
        · exact hw q h
        · exact Or.inr ⟨n1, s1, List.mem_cons_of_mem _ hm, hg, hp⟩
      · intro l1 w1 he q hq
        rcases h2 l1 w1 he q hq with h | ⟨n1, s1, hm, hg, hs, hp⟩
        · exact hl q h
        · exact Or.inr ⟨n1, s1, List.mem_cons_of_mem _ hm, hg, hs, hp⟩
    cases c with
    | file size =>
      simp only [check_loop] at h
      exact lift _ _ h (fun q hq => Or.inl hq) (fun q hq => Or.inl hq)
    | other => simp [check_loop] at h
    | symlink t =>
      simp only [check_loop] at h
      exact lift _ _ h (fun q hq => Or.inl hq) (fun q hq => Or.inl hq)
    | dir sub =>
      simp only [check_loop] at h
      split at h
      · simp only [Option.some.injEq] at h
        subst h
        exact ⟨fun q hq => Or.inl hq, fun l1 w1 he => by cases he⟩
      · rename_i hgit
        split at h
        · simp at h
        · rename_i w0 hc
          refine lift _ _ h ?_ (fun q hq => Or.inl hq)
          intro q hq
          rcases ih (name, .dir sub) (List.mem_cons_self _ _) _ _ _ _ hc q hq with h1 | h1
          · exact Or.inl h1
          · exact Or.inr ⟨name, sub, List.mem_cons_self _ _, hgit, h1⟩
        · rename_i w0 hc
          have hf := check_dir_false_items bl _ _ _ _ hc
          have hs := sendable_of_check_dir bl _ _ _ _ hc
          refine lift _ _ h ?_ ?_
          · intro q hq
            rw [hf.1] at hq
            exact Or.inl hq
          · intro q hq
            simp only [Finset.mem_insert] at hq
            rcases hq with rfl | hq
            · exact Or.inr ⟨name, sub, List.mem_cons_self _ _, hgit, hs, rfl⟩
            · exact Or.inl hq

/-- Every path that a call of `check_dir` inserts into `items` is promoted. -/
theorem check_dir_items (bl : Finset Path) (n : Node) :
    ∀ (p : Path) (w : World) (b : Bool) (w1 : World),
    check_dir bl p n w = some (b, w1) →
    ∀ q ∈ w1.bi.items, q ∈ w.bi.items ∨ Promoted bl p n q := by
  induction n using Node.tree_induct with
  | file size => intro p w b w1 h; simp only [check_dir] at h; split at h <;> simp_all
  | other => intro p w b w1 h; simp only [check_dir] at h; split at h <;> simp_all
  | symlink t _ => intro p w b w1 h; simp only [check_dir] at h; split at h <;> simp_all
  | dir entries ih =>
    intro p w b w1 h q hq
    have h' := h
    simp only [check_dir] at h
    split at h
    · simp only [Option.some.injEq, Prod.mk.injEq] at h
      rw [← h.2] at hq
      exact Or.inl hq
    · rename_i hbl
      have deep : ∀ (q : Path) name sub, (name, Node.dir sub) ∈ entries → stem name ≠ ".git" →
          Promoted bl (p ++ [name]) (.dir sub) q → Promoted bl p (.dir entries) q :=
        fun q name sub hm hg hp => Promoted.deeper hbl hm hg hp
      split at h
      · simp at h
      · rename_i w0 hl
        simp only [Option.some.injEq, Prod.mk.injEq] at h
        rw [← h.2] at hq
        rcases (check_loop_items bl p entries ih _ w _ hl).1 q hq with h1 | ⟨n1, s1, hm, hg, hp⟩
        · exact Or.inl h1
        · exact Or.inr (deep _ n1 s1 hm hg hp)
      · rename_i l w0 hl
        obtain ⟨hi, hsd⟩ := check_loop_items bl p entries ih _ w _ hl
        have hw0 : ∀ q ∈ w0.bi.items, q ∈ w.bi.items ∨ Promoted bl p (.dir entries) q := by
          intro q hq
          rcases hi q hq with h1 | ⟨n1, s1, hm, hg, hp⟩
          · exact Or.inl h1
          · exact Or.inr (deep _ n1 s1 hm hg hp)
        split at h
        · simp only [Option.some.injEq, Prod.mk.injEq] at h
          have hb : b = true := h.1.symm
          subst hb
          have hns := check_dir_true_not_sendable bl p _ w w1 h'
          rw [← h.2] at hq
          simp only [warn_large_bi, Finset.mem_union] at hq
          rcases hq with (hq | hq) | hq
          · exact hw0 q hq
          · rcases hsd l w0 rfl q hq with h1 | ⟨n1, s1, hm, hg, hs, rfl⟩
            · simp at h1
            · exact Or.inr (Promoted.whole hns hbl hm hg hs)
          · obtain ⟨n1, size, hm, rfl⟩ := (mem_regular_files p entries q).1 hq
            exact Or.inr (Promoted.file hns hbl hm)
        · simp only [Option.some.injEq, Prod.mk.injEq] at h
          rw [← h.2] at hq
          simp only [warn_large_bi] at hq
          exact hw0 q hq

theorem lookup_of_mem_nodup {entries : List (String × Node)} {name : String} {c : Node}
    (hnd : (entries.map Prod.fst).Nodup) (hmem : (name, c) ∈ entries) :
    entries.lookup name = some c := by
  induction entries with
  | nil => cases hmem
  | cons e rest ih =>
    obtain ⟨n1, c1⟩ := e
    simp only [List.map_cons, List.nodup_cons, List.mem_map, not_exists, not_and] at hnd
    rcases List.mem_cons.1 hmem with he | hm
    · cases he
      simp [List.lookup]
    · have hne : name ≠ n1 := by
        intro hEq
        exact hnd.1 (name, c) hm hEq
      have : (name == n1) = false := by simpa using hne
      simp only [List.lookup, this]
      exact ih hnd.2 hm

theorem mem_of_lookup {entries : List (String × Node)} {name : String} {c : Node}
    (h : entries.lookup name = some c) : (name, c) ∈ entries := by
  induction entries with
  | nil => simp [List.lookup] at h
  | cons e rest ih =>
    obtain ⟨n1, c1⟩ := e
    simp only [List.lookup] at h
    split at h
    · rename_i heq
      have : name = n1 := by simpa using heq
      cases h
      subst this
      exact List.mem_cons_self _ _
    · exact List.mem_cons_of_mem _ (ih h)

theorem entriesWf_mem {entries : List (String × Node)} (h : entriesWf entries = true) :
    ∀ e ∈ entries, e.2.wf = true := by
  induction entries with
  | nil => intro e he; cases he
  | cons e rest ih =>
    obtain ⟨n1, c1⟩ := e
    simp only [entriesWf, Bool.and_eq_true] at h
    intro e he
    rcases List.mem_cons.1 he with rfl | hm
    · exact h.1
    · exact ih h.2 e hm

theorem wf_dir {entries : List (String × Node)} (h : (Node.dir entries).wf = true) :
    (entries.map Prod.fst).Nodup ∧ ∀ e ∈ entries, e.2.wf = true := by
  simp only [Node.wf, Bool.and_eq_true, decide_eq_true_eq] at h
  exact ⟨h.1, entriesWf_mem h.2⟩

theorem entryAt_child {entries : List (String × Node)} {name : String} {c : Node}
    (hwf : (Node.dir entries).wf = true) (hmem : (name, c) ∈ entries) (s : Path) :
    entryAt (.dir entries) (name :: s) = entryAt c s := by
  simp only [entryAt, lookup_of_mem_nodup (wf_dir hwf).1 hmem]

/-- A promoted path names a regular file, or a directory that is sendable. -/
theorem Promoted.entry {bl : Finset Path} {p q : Path} {n : Node}
    (h : Promoted bl p n q) (hwf : n.wf = true) :
    ∃ s, s ≠ [] ∧ q = p ++ s ∧
      ((∃ size, entryAt n s = some (.file size)) ∨
       (∃ sub, entryAt n s = some (.dir sub) ∧ sendable bl q (.dir sub) = true)) := by
  induction h with
  | @file path entries name size _ _ hmem =>
    refine ⟨[name], by simp, rfl, Or.inl ⟨size, ?_⟩⟩
    rw [entryAt_child hwf hmem]; rfl
  | @whole path entries name sub _ _ hmem _ hs =>
    refine ⟨[name], by simp, rfl, Or.inr ⟨sub, ?_, hs⟩⟩
    rw [entryAt_child hwf hmem]; rfl
  | @deeper path entries name sub q _ hmem _ _ ih =>
    obtain ⟨s, hs, hq, hk⟩ := ih ((wf_dir hwf).2 _ hmem)
    refine ⟨name :: s, by simp, by simp [hq], ?_⟩
    rw [entryAt_child hwf hmem]
    exact hk

/-- Every directory between the directory of the call and a promoted path is a
directory that is not sendable. -/
theorem Promoted.ancestors {bl : Finset Path} {p q : Path} {n : Node}
    (h : Promoted bl p n q) (hwf : n.wf = true) :
    ∀ s t, q = p ++ s ++ t → t ≠ [] →
      ∃ es, entryAt n s = some (.dir es) ∧ sendable bl (p ++ s) (.dir es) = false := by
  induction h with
  | @file path entries name size hns _ hmem =>
    intro s t hq ht
    have : s ++ t = [name] := by
      have h1 : path ++ (s ++ t) = path ++ [name] := by
        simpa [List.append_assoc] using hq.symm
      exact List.append_cancel_left h1
    cases s with
    | nil => exact ⟨entries, rfl, by simpa using hns⟩
    | cons a s' =>
      cases t with
      | nil => exact absurd rfl ht
      | cons b t' => simp at this
  | @whole path entries name sub hns _ hmem _ hs =>
    intro s t hq ht
    have : s ++ t = [name] := by
      have h1 : path ++ (s ++ t) = path ++ [name] := by
        simpa [List.append_assoc] using hq.symm
      exact List.append_cancel_left h1
    cases s with
    | nil => exact ⟨entries, rfl, by simpa using hns⟩
    | cons a s' =>
      cases t with
      | nil => exact absurd rfl ht
      | cons b t' => simp at this
  | @deeper path entries name sub q hbl hmem hg hp ih =>
    intro s t hq ht
    have hns := (Promoted.deeper hbl hmem hg hp).not_sendable
    obtain ⟨s0, hs0, hq0, _⟩ := hp.entry ((wf_dir hwf).2 _ hmem)
    cases s with
    | nil => exact ⟨entries, rfl, by simpa using hns⟩
    | cons a s' =>
      have heq : a :: (s' ++ t) = name :: s0 := by
        have h1 : path ++ (a :: (s' ++ t)) = path ++ (name :: s0) := by
          rw [hq0] at hq
          simpa [List.append_assoc] using hq.symm
        exact List.append_cancel_left h1
      simp only [List.cons.injEq] at heq
      obtain ⟨rfl, hst⟩ := heq
      obtain ⟨es, he, hse⟩ := ih ((wf_dir hwf).2 _ hmem) s' t
        (by rw [hq0, ← hst]; simp [List.append_assoc]) ht
      refine ⟨es, ?_, ?_⟩
      · rw [entryAt_child hwf hmem]; exact he
      · simpa [List.append_assoc] using hse

theorem resolve_fixed (n : Node) : ∀ m, n.resolve = some m → m.resolve = some m := by
  induction n using Node.tree_induct with
  | file size => intro m h; simp only [Node.resolve, Option.some.injEq] at h; subst h; rfl
  | other => intro m h; simp only [Node.resolve, Option.some.injEq] at h; subst h; rfl
  | symlink t ih =>
    intro m h
    cases t with
    | none => simp [Node.resolve] at h
    | some k =>
      simp only [Node.resolve] at h
      exact ih k rfl m h
  | dir entries _ => intro m h; simp only [Node.resolve, Option.some.injEq] at h; subst h; rfl

theorem resolve_wf (n : Node) : ∀ m, n.wf = true → n.resolve = some m → m.wf = true := by
  induction n using Node.tree_induct with
  | file size => intro m hw h; simp only [Node.resolve, Option.some.injEq] at h; subst h; exact hw
  | other => intro m hw h; simp only [Node.resolve, Option.some.injEq] at h; subst h; exact hw
  | symlink t ih =>
    intro m hw h
    cases t with
    | none => simp [Node.resolve] at h
    | some k =>
      simp only [Node.resolve] at h
      simp only [Node.wf] at hw
      exact ih k rfl m hw h
  | dir entries _ =>
    intro m hw h; simp only [Node.resolve, Option.some.injEq] at h; subst h; exact hw

theorem lookup_resolve {n m : Node} (h : n.resolve = some m) (s : Path) :
    lookup m s = lookup n s := by
  cases s with
  | nil => simp only [lookup, h, resolve_fixed n m h]
  | cons c r => simp only [lookup, h, resolve_fixed n m h]

theorem lookup_append (fs : Node) (p s : Path) :
    lookup fs (p ++ s) = (lookup fs p).bind (fun n => lookup n s) := by
  induction p generalizing fs with
  | nil =>
    simp only [List.nil_append, lookup]
    cases hr : fs.resolve with
    | none =>
      cases s with
      | nil => simp [lookup, hr]
      | cons c r => simp [lookup, hr]
    | some m => simp only [Option.some_bind]; exact (lookup_resolve hr s).symm
  | cons c r ih =>
    simp only [List.cons_append, lookup]
    cases hr : fs.resolve with
    | none => simp
    | some m =>
      cases m with
      | dir entries =>
        simp only
        cases hl : entries.lookup c with
        | none => simp
        | some child => simp only; exact ih child
      | file size => simp
      | other => simp
      | symlink t => simp

theorem wf_lookup (fs : Node) (p : Path) : ∀ n, fs.wf = true → lookup fs p = some n →
    n.wf = true := by
  induction p generalizing fs with
  | nil => intro n hw h; exact resolve_wf fs n hw h
  | cons c r ih =>
    intro n hw h
    simp only [lookup] at h
    cases hr : fs.resolve with
    | none => simp [hr] at h
    | some m =>
      rw [hr] at h
      have hm := resolve_wf fs m hw hr
      cases m with
      | dir entries =>
        simp only at h
        cases hl : entries.lookup c with
        | none => simp [hl] at h
        | some child =>
          rw [hl] at h
          exact ih child n ((wf_dir hm).2 _ (mem_of_lookup hl)) h
      | file size => simp at h
      | other => simp at h
      | symlink t => simp at h

theorem lookup_of_entryAt (n : Node) (s : Path) : ∀ m, entryAt n s = some m →
    m.resolve = some m → lookup n s = some m := by
  induction s generalizing n with
  | nil =>
    intro m h hm
    simp only [entryAt, Option.some.injEq] at h
    subst h
    simpa [lookup] using hm
  | cons c r ih =>
    intro m h hm
    cases n with
    | dir entries =>
      simp only [entryAt] at h
      simp only [lookup, Node.resolve]
      cases hl : entries.lookup c with
      | none => simp [hl] at h
      | some child =>
        rw [hl] at h
        exact ih child m h hm
    | file size => simp [entryAt] at h
    | other => simp [entryAt] at h
    | symlink t => simp [entryAt] at h

/-- Below a root that `stat` sees as the node `n`, the entry at a relative path
that is a regular file or a directory is what `stat` sees at the joined path. -/
theorem lookup_entry (fs : Node) (p s : Path) (n m : Node) (hp : lookup fs p = some n)
    (hs : entryAt n s = some m) (hm : m.resolve = some m) :
    lookup fs (p ++ s) = some m := by
  rw [lookup_append, hp]
  exact lookup_of_entryAt n s m hs hm

theorem prepare_step_items (fs : Node) (bl : Finset Path) (src : Path) (w w1 : World)
    (h : prepare_step fs bl src w = some w1) :
    ∀ q ∈ w1.bi.items, q ∈ w.bi.items ∨ ItemOf fs bl src q := by
  intro q hq
  unfold prepare_step at h
  split at h
  · rename_i entries hl
    split at h
    · simp at h
    · rename_i w0 hc
      simp only [Option.some.injEq] at h
      subst h
      rcases check_dir_items bl _ _ _ _ _ hc q hq with h1 | h1
      · exact Or.inl h1
      · exact Or.inr (ItemOf.promoted hl h1)
    · rename_i w0 hc
      simp only [Option.some.injEq] at h
      subst h
      simp only [Finset.mem_insert] at hq
      rcases hq with rfl | hq
      · exact Or.inr (ItemOf.whole hl (sendable_of_check_dir bl _ _ _ _ hc))
      · rw [(check_dir_false_items bl _ _ _ _ hc).1] at hq
        exact Or.inl hq
  · rename_i hnd
    simp only [Option.some.injEq] at h
    subst h
    simp only [Finset.mem_insert] at hq
    rcases hq with rfl | hq
    · exact Or.inr (ItemOf.plain (fun es he => hnd es he))
    · exact Or.inl hq

/-- Every element of `items` comes from one of the roots. -/
theorem prepare_loop_items (fs : Node) (bl : Finset Path) (srcs : List Path) (w w1 : World)
    (h : prepare_loop fs bl srcs w = some w1) :
    ∀ q ∈ w1.bi.items, q ∈ w.bi.items ∨ ∃ src ∈ srcs, ItemOf fs bl src q := by
  induction srcs generalizing w with
  | nil =>
    simp only [prepare_loop, Option.some.injEq] at h
    subst h
    exact fun q hq => Or.inl hq
  | cons src rest ih =>
    simp only [prepare_loop] at h
    cases hs : prepare_step fs bl src w with
    | none => simp [hs] at h
    | some w0 =>
      rw [hs] at h
      intro q hq
      rcases ih w0 h q hq with h1 | ⟨r, hr, ho⟩
      · rcases prepare_step_items fs bl src w w0 hs q h1 with h2 | h2
        · exact Or.inl h2
        · exact Or.inr ⟨src, List.mem_cons_self _ _, h2⟩
      · exact Or.inr ⟨r, List.mem_cons_of_mem _ hr, ho⟩

theorem prepare_backup_items (fs : Node) (config : Config) (bi : BackupInfo)
    (h : prepare_backup fs config = some bi) :
    ∀ q ∈ bi.items, ∃ src ∈ config.srcs, ItemOf fs config.blacklist src q := by
  unfold prepare_backup at h
  cases hl : prepare_loop fs config.blacklist config.srcs World.init with
  | none => simp [hl] at h
  | some w1 =>
    rw [hl] at h
    simp only [Option.map_some', Option.some.injEq] at h
    subst h
    intro q hq
    rcases prepare_loop_items fs _ _ _ _ hl q hq with h1 | h1
    · simp [World.init] at h1
    · exact h1

theorem ItemOf.root_le {fs : Node} {bl : Finset Path} {src q : Path}
    (h : ItemOf fs bl src q) (hwf : fs.wf = true) : src <+: q := by
  cases h with
  | plain _ => exact List.prefix_refl _
  | whole _ _ => exact List.prefix_refl _
  | promoted hl hp =>
    obtain ⟨s, _, hq, _⟩ := hp.entry (wf_lookup fs src _ hwf hl)
    exact ⟨s, hq.symm⟩

/-- An item that is a directory is a sendable directory. -/
theorem ItemOf.sendable_of_dir {fs : Node} {bl : Finset Path} {src q : Path}
    (h : ItemOf fs bl src q) (hwf : fs.wf = true) (entries : List (String × Node))
    (hq : lookup fs q = some (.dir entries)) : sendable bl q (.dir entries) = true := by
  cases h with
  | plain hnd => exact absurd hq (hnd entries)
  | whole hl hs =>
    rw [hl] at hq
    cases hq
    exact hs
  | promoted hl hp =>
    obtain ⟨s, _, hqs, hk⟩ := hp.entry (wf_lookup fs src _ hwf hl)
    rcases hk with ⟨size, he⟩ | ⟨sub, he, hs⟩
    · have := lookup_entry fs src s _ _ hl he rfl
      rw [← hqs, hq] at this
      cases this
    · have := lookup_entry fs src s _ _ hl he rfl
      rw [← hqs, hq] at this
      cases this
      exact hs

theorem sendable_not_blacklisted {bl : Finset Path} {p : Path} {n : Node}
    (h : sendable bl p n = true) : p ∉ bl := by
  cases n with
  | dir entries =>
    simp only [sendable, Bool.and_eq_true, decide_eq_true_eq] at h
    exact h.1
  | file size => simp [sendable] at h
  | other => simp [sendable] at h
  | symlink t => simp [sendable] at h

theorem sendable_no_git (bl : Finset Path) (n : Node) : ∀ p, sendable bl p n = true →
    hasGit n = false := by
  induction n using Node.tree_induct with
  | file size => intro p h; simp [sendable] at h
  | other => intro p h; simp [sendable] at h
  | symlink t _ => intro p h; simp [sendable] at h
  | dir entries ih =>
    intro p h
    simp only [sendable, Bool.and_eq_true, decide_eq_true_eq] at h
    obtain ⟨_, hes⟩ := h
    simp only [hasGit]
    induction entries with
    | nil => rfl
    | cons e rest ihr =>
      obtain ⟨name, c⟩ := e
      have hr := ihr (fun e he => ih e (List.mem_cons_of_mem _ he))
      cases c with
      | file size =>
        simp only [sendableEntries, Bool.true_and] at hes
        simp [entriesHaveGit, hr hes]
      | other => simp [sendableEntries] at hes
      | symlink t =>
        simp only [sendableEntries, Bool.true_and] at hes
        simp [entriesHaveGit, hr hes]
      | dir sub =>
        simp only [sendableEntries, Bool.and_eq_true, decide_eq_true_eq] at hes
        obtain ⟨⟨hg, hs⟩, hrest⟩ := hes
        have h1 := ih (name, .dir sub) (List.mem_cons_self _ _) _ hs
        simp only at h1
        simp [entriesHaveGit, hr hrest, hg, h1]

theorem unrelated_eq {srcs : List Path} (h : unrelated srcs) {a b : Path}
    (ha : a ∈ srcs) (hb : b ∈ srcs) (hab : a <+: b) : a = b := by
  by_contra hne
  have hsymm : Symmetric (fun a b : Path => ¬ a <+: b ∧ ¬ b <+: a) :=
    fun x y hxy => ⟨hxy.2, hxy.1⟩
  exact (List.Pairwise.forall hsymm h ha hb hne).1 hab

/-- Two items of the same root: neither lies below the other. -/
theorem ItemOf.antichain {fs : Node} {bl : Finset Path} {src p q : Path}
    (hp : ItemOf fs bl src p) (hq : ItemOf fs bl src q) (hwf : fs.wf = true)
    (hpq : p <+: q) : p = q := by
  cases hp with
  | plain hnd =>
    cases hq with
    | plain _ => rfl
    | whole hl _ => exact absurd hl (hnd _)
    | promoted hl _ => exact absurd hl (hnd _)
  | whole hl hs =>
    cases hq with
    | plain hnd => exact absurd hl (hnd _)
    | whole _ _ => rfl
    | promoted hl2 hpr =>
      rw [hl] at hl2
      cases hl2
      have := hpr.not_sendable
      rw [hs] at this
      cases this
  | promoted hl hpr =>
    have hwn := wf_lookup fs src _ hwf hl
    obtain ⟨s, hs, hps, hk⟩ := hpr.entry hwn
    cases hq with
    | plain hnd => exact absurd hl (hnd _)
    | whole _ _ =>
      exfalso
      have hlen := hpq.length_le
      rw [hps] at hlen
      simp only [List.length_append] at hlen
      have : s.length = 0 := by omega
      exact hs (List.length_eq_zero.1 this)
    | promoted hl2 hqr =>
      rw [hl] at hl2
      cases hl2
      obtain ⟨t, ht⟩ := hpq
      by_cases htn : t = []
      · subst htn; simpa using ht
      · exfalso
        obtain ⟨es, he, hse⟩ := hqr.ancestors hwn s t (by rw [← ht, hps]) htn
        rcases hk with ⟨size, hf⟩ | ⟨sub, hd, hsd⟩
        · rw [hf] at he; cases he
        · rw [hd] at he
          cases he
          rw [← hps, hsd] at hse
          cases hse

/-- With unrelated roots no element of `items` lies below another one. -/
theorem items_antichain (fs : Node) (config : Config) (bi : BackupInfo)
    (hwf : fs.wf = true) (hun : unrelated config.srcs)
    (h : prepare_backup fs config = some bi) (p q : Path)
    (hp : p ∈ bi.items) (hq : q ∈ bi.items) (hpq : p <+: q) : p = q := by
  obtain ⟨r1, hr1, ho1⟩ := prepare_backup_items fs config bi h p hp
  obtain ⟨r2, hr2, ho2⟩ := prepare_backup_items fs config bi h q hq
  have h1 : r1 <+: q := (ho1.root_le hwf).trans hpq
  have h2 : r2 <+: q := ho2.root_le hwf
  have hr : r1 = r2 := by
    rcases Nat.le_total r1.length r2.length with hle | hle
    · exact unrelated_eq hun hr1 hr2 (List.prefix_of_prefix_length_le h1 h2 hle)
    · exact (unrelated_eq hun hr2 hr1 (List.prefix_of_prefix_length_le h2 h1 hle)).symm
  subst hr
  exact ho1.antichain ho2 hwf hpq

theorem regular_files_pruneEntries (bl : Finset Path) (path : Path)
    (entries : List (String × Node)) :
    regular_files path (pruneEntries bl path entries) = regular_files path entries := by
  induction entries with
  | nil => rfl
  | cons e rest ih =>
    obtain ⟨name, c⟩ := e
    cases c with
    | file size => simp [pruneEntries, prune, regular_files, ih]
    | other => simp [pruneEntries, prune, regular_files, ih]
    | symlink t => simp [pruneEntries, prune, regular_files, ih]
    | dir sub =>
      simp only [pruneEntries, prune]
      split <;> simp [regular_files, ih]

theorem check_loop_pruneEntries (bl : Finset Path) (path : Path)
    (entries : List (String × Node))
    (ih : ∀ e ∈ entries, ∀ (p : Path) (w : World),
      check_dir bl p (prune bl p e.2) w = check_dir bl p e.2 w)
    (l : Locals) (w : World) :
    check_loop bl path (pruneEntries bl path entries) l w = check_loop bl path entries l w := by
  induction entries generalizing l w with
  | nil => rfl
  | cons e rest ihr =>
    obtain ⟨name, c⟩ := e
    have ihr1 := ihr (fun e he => ih e (List.mem_cons_of_mem _ he))
    cases c with
    | file size => simp only [pruneEntries, prune, check_loop, ihr1]
    | other => simp only [pruneEntries, prune, check_loop]
    | symlink t => simp only [pruneEntries, prune, check_loop, ihr1]
    | dir sub =>
      have hc := ih (name, .dir sub) (List.mem_cons_self _ _) (path ++ [name]) w
      simp only [prune] at hc
      simp only [pruneEntries, prune]
      split
      · rename_i hbl
        rw [if_pos hbl] at hc
        simp only [check_loop, hc, ihr1]
      · rename_i hbl
        rw [if_neg hbl] at hc
        simp only [check_loop, hc, ihr1]

/-- What lies in a blacklisted directory does not reach `check_dir`. -/
theorem check_dir_prune (bl : Finset Path) (n : Node) : ∀ (p : Path) (w : World),
    check_dir bl p (prune bl p n) w = check_dir bl p n w := by
  induction n using Node.tree_induct with
  | file size => intro p w; rfl
  | other => intro p w; rfl
  | symlink t _ => intro p w; rfl
  | dir entries ih =>
    intro p w
    simp only [prune]
    split
    · rename_i hbl
      simp only [check_dir, if_pos hbl]
    · rename_i hbl
      simp only [check_dir, if_neg hbl, check_loop_pruneEntries bl p entries ih,
        regular_files_pruneEntries]

theorem prepare_step_prune (fs fs1 : Node) (bl : Finset Path) (src : Path) (w : World)
    (h : lookup fs1 src = (lookup fs src).map (prune bl src)) :
    prepare_step fs1 bl src w = prepare_step fs bl src w := by
  unfold prepare_step
  rw [h]
  cases hl : lookup fs src with
  | none => rfl
  | some n =>
    cases n with
    | file size => rfl
    | other => rfl
    | symlink t => rfl
    | dir entries =>
      have hc := check_dir_prune bl (.dir entries) src w
      simp only [prune] at hc
      simp only [Option.map_some', prune]
      by_cases hbl : src ∈ bl
      · rw [if_pos hbl] at hc
        simp only [if_pos hbl, hc]
      · rw [if_neg hbl] at hc
        simp only [if_neg hbl, hc]

theorem prepare_loop_prune (fs fs1 : Node) (bl : Finset Path) (srcs : List Path) (w : World)
    (h : ∀ src ∈ srcs, lookup fs1 src = (lookup fs src).map (prune bl src)) :
    prepare_loop fs1 bl srcs w = prepare_loop fs bl srcs w := by
  induction srcs generalizing w with
  | nil => rfl
  | cons src rest ih =>
    simp only [prepare_loop, prepare_step_prune fs fs1 bl src w (h src (List.mem_cons_self _ _))]
    cases prepare_step fs bl src w with
    | none => rfl
    | some w1 => exact ih w1 (fun s hs => h s (List.mem_cons_of_mem _ hs))

/-- C3, counterexample: the regular file `/A/y` is on the blacklist and is an
element of `items`. -/
theorem c3_blacklisted_file_in_items :
    ∃ bi, prepare_backup c3_fs ⟨[["A"]], ["backup"], {["A", "x"], ["A", "y"]}, "-a"⟩ = some bi ∧
      ["A", "y"] ∈ bi.items ∧ ["A", "y"] ∈ ({["A", "x"], ["A", "y"]} : Finset Path) :=
  ⟨_, rfl, by decide, by decide⟩

/-- C3, amended: no blacklisted directory is an element of `items`, and what
lies in a blacklisted directory at or below a root has no influence on `items`
and `total_filesize`: a file system in which these directories are empty gives
the same result. -/
theorem c3_blacklist_excluded (fs fs1 : Node) (config : Config)
    (hwf : fs.wf = true)
    (hsame : ∀ src ∈ config.srcs,
      lookup fs1 src = (lookup fs src).map (prune config.blacklist src)) :
    (∀ bi, prepare_backup fs config = some bi →
      ∀ q entries, q ∈ config.blacklist → lookup fs q = some (.dir entries) →
        q ∉ bi.items) ∧
    prepare_backup fs1 config = prepare_backup fs config := by
  constructor
  · intro bi h q entries hbl hq hmem
    obtain ⟨src, _, ho⟩ := prepare_backup_items fs config bi h q hmem
    exact sendable_not_blacklisted (ho.sendable_of_dir hwf entries hq) hbl
  · unfold prepare_backup
    rw [prepare_loop_prune fs fs1 config.blacklist config.srcs World.init hsame]

/-- C3 amended, at the scenario of C1 and the same tree with `/A/C/x` emptied. -/
theorem c3_blacklist_excluded_witness :
    (∀ bi, prepare_backup c1_fs ⟨[["A"]], ["backup"], {["A", "C", "x"]}, "-a"⟩ = some bi →
      ∀ q entries, q ∈ ({["A", "C", "x"]} : Finset Path) →
        lookup c1_fs q = some (.dir entries) → q ∉ bi.items) ∧
    prepare_backup c3_pruned_fs ⟨[["A"]], ["backup"], {["A", "C", "x"]}, "-a"⟩
      = prepare_backup c1_fs ⟨[["A"]], ["backup"], {["A", "C", "x"]}, "-a"⟩ :=
  c3_blacklist_excluded c1_fs c3_pruned_fs ⟨[["A"]], ["backup"], {["A", "C", "x"]}, "-a"⟩
    (by decide) (by
      intro src hsrc
      simp only [List.mem_singleton] at hsrc
      subst hsrc
      rfl)

theorem check_dir_true_of_git (bl : Finset Path) (p : Path) (n : Node) (w : World)
    (b : Bool) (w1 : World) (hgit : hasGit n = true)
    (h : check_dir bl p n w = some (b, w1)) : b = true := by
  cases b with
  | true => rfl
  | false =>
    have := sendable_no_git bl n p (sendable_of_check_dir bl n p w w1 h)
    rw [hgit] at this
    cases this

/-- C4, counterexample: the root `/R` holds `.git` and a file of 10 bytes; it
does not come into `items` and nothing is counted. -/
theorem c4_git_root_not_sent :
    prepare_backup c4_fs ⟨[["R"]], ["backup"], ∅, "-a"⟩ = some ⟨∅, 0⟩ ∧
    hasGit (.dir [(".git", .dir []), ("f", .file 10)]) = true ∧
    lookup c4_fs ["R"] = some (.dir [(".git", .dir []), ("f", .file 10)]) :=
  ⟨rfl, rfl, rfl⟩

/-- C4, amended: for a root directory that holds, directly or at any depth
through directories that are no links, a directory with stem `.git`, `check_dir`
returns `true` and `prepare_backup` does not put the root into `items`. -/
theorem c4_git_tree_not_whole (fs : Node) (config : Config) (R : Path)
    (entries : List (String × Node)) (hwf : fs.wf = true)
    (hR : lookup fs R = some (.dir entries)) (hgit : hasGit (.dir entries) = true) :
    (∀ w b w1, check_dir config.blacklist R (.dir entries) w = some (b, w1) → b = true) ∧
    (∀ bi, prepare_backup fs config = some bi → R ∉ bi.items) := by
  constructor
  · intro w b w1 h
    exact check_dir_true_of_git _ _ _ _ _ _ hgit h
  · intro bi h hmem
    obtain ⟨src, _, ho⟩ := prepare_backup_items fs config bi h R hmem
    have := sendable_no_git _ _ _ (ho.sendable_of_dir hwf entries hR)
    rw [hgit] at this
    cases this

/-- C4 amended, at the root `/R` that holds `.git` and a file. -/
theorem c4_git_tree_not_whole_witness :
    (∀ w b w1, check_dir ∅ ["R"] (.dir [(".git", .dir []), ("f", .file 10)]) w = some (b, w1) →
      b = true) ∧
    (∀ bi, prepare_backup c4_fs ⟨[["R"]], ["backup"], ∅, "-a"⟩ = some bi →
      ["R"] ∉ bi.items) :=
  c4_git_tree_not_whole c4_fs ⟨[["R"]], ["backup"], ∅, "-a"⟩ ["R"] _ (by decide) rfl rfl

/-- C5, counterexample: with the roots `/A` and `/A/B` both the directory `/A`
and its descendant `/A/B` are elements of `items`. -/
theorem c5_nested_roots_overlap :
    ∃ bi, prepare_backup c5_fs ⟨[["A"], ["A", "B"]], ["backup"], ∅, "-a"⟩ = some bi ∧
      ["A"] ∈ bi.items ∧ ["A", "B"] ∈ bi.items ∧
      lookup c5_fs ["A"] = some (.dir [("B", .dir [("f", .file 10)])]) :=
  ⟨_, rfl, by decide, by decide, rfl⟩

/-- C5, amended: when no root is another root or lies below one, `items` holds no
path below a directory that is itself in `items`. -/
theorem c5_no_item_below_directory_item (fs : Node) (config : Config) (bi : BackupInfo)
    (hwf : fs.wf = true) (hun : unrelated config.srcs)
    (h : prepare_backup fs config = some bi)
    (p q : Path) (entries : List (String × Node))
    (hp : p ∈ bi.items) (_hdir : lookup fs p = some (.dir entries))
    (hq : q ∈ bi.items) (hpq : p <+: q) : p = q :=
  items_antichain fs config bi hwf hun h p q hp hq hpq

/-- C5 amended, at the scenario of C1: `/A/B` is a directory in `items`. -/
theorem c5_no_item_below_directory_item_witness :
    ∃ bi, prepare_backup c1_fs ⟨[["A"]], ["backup"], {["A", "C", "x"]}, "-a"⟩ = some bi ∧
      ∀ q : Path, q ∈ bi.items → ["A", "B"] <+: q → ["A", "B"] = q :=
  ⟨_, rfl, fun q hq hpq =>
    c5_no_item_below_directory_item c1_fs ⟨[["A"]], ["backup"], {["A", "C", "x"]}, "-a"⟩
      _ (by decide) (by simp [unrelated]) rfl ["A", "B"] q _ (by decide) rfl hq hpq⟩

/-- C8, counterexample: the root directory `/A` is on the blacklist and does not
come into `items`. -/
theorem c8_blacklisted_root_not_added :
    prepare_backup c8_fs ⟨[["A"]], ["backup"], {["A"]}, "-a"⟩ = some ⟨∅, 0⟩ ∧
    lookup c8_fs ["A"] = some (.dir [("f", .file 10)]) :=
  ⟨rfl, rfl⟩

/-- C8, amended: a root that is a directory and on the blacklist is not added to
`items`: its turn in `prepare_backup` changes nothing, and the root is no
element of the resulting `items`. -/
theorem c8_blacklisted_root_skipped (fs : Node) (config : Config) (R : Path)
    (entries : List (String × Node))
    (hR : lookup fs R = some (.dir entries)) (hbl : R ∈ config.blacklist) :
    (∀ w, prepare_step fs config.blacklist R w = some w) ∧
    (fs.wf = true → ∀ bi, prepare_backup fs config = some bi → R ∉ bi.items) := by
  constructor
  · intro w
    simp [prepare_step, hR, check_dir, hbl]
  · intro hwf bi h hmem
    obtain ⟨src, _, ho⟩ := prepare_backup_items fs config bi h R hmem
    exact sendable_not_blacklisted (ho.sendable_of_dir hwf entries hR) hbl

/-- C8 amended, at the blacklisted root `/A`. -/
theorem c8_blacklisted_root_skipped_witness :
    prepare_step c8_fs {["A"]} ["A"] World.init = some World.init ∧
    ∀ bi, prepare_backup c8_fs ⟨[["A"]], ["backup"], {["A"]}, "-a"⟩ = some bi →
      ["A"] ∉ bi.items :=
  ⟨(c8_blacklisted_root_skipped c8_fs ⟨[["A"]], ["backup"], {["A"]}, "-a"⟩ ["A"] _ rfl
      (by decide)).1 World.init,
   (c8_blacklisted_root_skipped c8_fs ⟨[["A"]], ["backup"], {["A"]}, "-a"⟩ ["A"] _ rfl
      (by decide)).2 (by decide)⟩

/-- C9, counterexample: the only entry of the root `/A` is the blacklisted
directory `/A/x`; the root does not come into `items`. -/
theorem c9_blacklisted_child_sets_mixed :
    prepare_backup c9_fs ⟨[["A"]], ["backup"], {["A", "x"]}, "-a"⟩ = some ⟨∅, 0⟩ ∧
    check_loop {["A", "x"]} ["A"] [("x", .dir [])] ⟨0, ∅, false⟩ World.init
      = some (.finished ⟨0, ∅, true⟩ World.init) :=
  ⟨rfl, rfl⟩

/-- C9, amended: a blacklisted child directory sets the mixed flag of its
parent.  For a directory that is not blacklisted and whose entries, at least
one, are all blacklisted directories, `check_dir` returns `true` and changes
nothing, so `prepare_backup` adds neither the root nor anything below it. -/
theorem c9_only_blacklisted_children (fs : Node) (bl : Finset Path) (R : Path)
    (entries : List (String × Node)) (w : World)
    (hbl : R ∉ bl) (hne : entries ≠ [])
    (hall : ∀ e ∈ entries, (∃ sub, e.2 = .dir sub) ∧ R ++ [e.1] ∈ bl) :
    check_dir bl R (.dir entries) w = some (true, w) ∧
    (lookup fs R = some (.dir entries) → prepare_step fs bl R w = some w) := by
  have hc : check_dir bl R (.dir entries) w = some (true, w) := by
    have hreg : regular_files R entries = ∅ := by
      apply Finset.eq_empty_of_forall_not_mem
      intro q hq
      obtain ⟨name, size, hm, _⟩ := (mem_regular_files R entries q).1 hq
      obtain ⟨⟨sub, hsub⟩, _⟩ := hall _ hm
      cases hsub
    have hemp : entries.isEmpty = false := by
      cases entries with
      | nil => exact absurd rfl hne
      | cons e rest => rfl
    rcases check_loop_all_blacklisted bl R entries hall ⟨0, ∅, false⟩ w with h | h
    · simp only [check_dir, if_neg hbl, h]
    · simp only [check_dir, if_neg hbl, h, hemp, hreg]
      simp [warn_large, large_warning_size]
  refine ⟨hc, fun hR => ?_⟩
  simp only [prepare_step, hR, hc]

/-- C9 amended, at the root `/A` with the blacklisted `/A/x`. -/
theorem c9_only_blacklisted_children_witness :
    check_dir {["A", "x"]} ["A"] (.dir [("x", .dir [])]) World.init = some (true, World.init) ∧
    prepare_step c9_fs {["A", "x"]} ["A"] World.init = some World.init :=
  have h := c9_only_blacklisted_children c9_fs {["A", "x"]} ["A"] [("x", .dir [])] World.init
    (by decide) (by simp) (by
      intro e he
      simp only [List.mem_singleton] at he
      subst he
      exact ⟨⟨[], rfl⟩, by decide⟩)
  ⟨h.1, h.2 rfl⟩

/-- C10, counterexample: the root `/A` has no regular file below it and no
direct child that is blacklisted or named `.git`, but `/A/D/x` is blacklisted;
the root does not come into `items`. -/
theorem c10_deep_blacklist_not_sendable :
    prepare_backup c10_fs ⟨[["A"]], ["backup"], {["A", "D", "x"]}, "-a"⟩ = some ⟨∅, 0⟩ ∧
    lookup c10_fs ["A"] = some (.dir [("D", .dir [("x", .dir [])])]) ∧
    hasFile (.dir [("D", .dir [("x", .dir [])])]) = false ∧
    ["A", "D"] ∉ ({["A", "D", "x"]} : Finset Path) ∧ stem "D" ≠ ".git" :=
  ⟨rfl, rfl, rfl, by decide, by decide⟩

/-- C10, amended: a root directory without a regular file below it that is
sendable (neither it nor a directory at any depth below it is blacklisted, no
directory below it has stem `.git`, every entry is a directory or a link) is
added to `items` itself, nothing below it is added and `total_filesize` stays
as it is. -/
theorem c10_empty_tree_sent_whole (fs : Node) (config : Config) (R : Path)
    (entries : List (String × Node))
    (hR : lookup fs R = some (.dir entries))
    (hsend : sendable config.blacklist R (.dir entries) = true)
    (hfiles : hasFile (.dir entries) = false) :
    (∀ w, ∃ w1, prepare_step fs config.blacklist R w = some w1 ∧
      w1.bi.items = insert R w.bi.items ∧ w1.bi.total_filesize = w.bi.total_filesize) ∧
    (config.srcs = [R] → prepare_backup fs config = some ⟨{R}, 0⟩) := by
  have key : ∀ w, ∃ w1, prepare_step fs config.blacklist R w = some w1 ∧
      w1.bi.items = insert R w.bi.items ∧ w1.bi.total_filesize = w.bi.total_filesize := by
    intro w
    obtain ⟨w0, hc, hi, ht⟩ := check_dir_of_sendable config.blacklist _ R w hsend
    rw [treeBytes_of_no_file _ hfiles] at ht
    refine ⟨{ w0 with bi := { w0.bi with items := insert R w0.bi.items } }, ?_, ?_, ?_⟩
    · simp only [prepare_step, hR, hc]
    · simp only [hi]
    · simpa using ht
  refine ⟨key, fun hs => ?_⟩
  obtain ⟨w1, h1, h2, h3⟩ := key World.init
  simp only [prepare_backup, hs, prepare_loop, h1, Option.map_some', Option.some.injEq]
  cases w1 with
  | mk bi ws =>
    cases bi with
    | mk items total =>
      simp only [World.init] at h2 h3
      subst h2 h3
      rfl

/-- C10 amended, at a root `/A` that holds only the empty directory `/A/x`. -/
theorem c10_empty_tree_sent_whole_witness :
    prepare_backup c9_fs ⟨[["A"]], ["backup"], ∅, "-a"⟩ = some ⟨{["A"]}, 0⟩ :=
  (c10_empty_tree_sent_whole c9_fs ⟨[["A"]], ["backup"], ∅, "-a"⟩ ["A"] _ rfl (by decide)
    (by decide)).2 rfl

theorem regular_files_stripEntries (path : Path) (entries : List (String × Node)) :
    regular_files path (stripEntries entries) = regular_files path entries := by
  induction entries with
  | nil => rfl
  | cons e rest ih =>
    obtain ⟨name, c⟩ := e
    cases c <;> simp [stripEntries, strip, regular_files, ih]

theorem check_loop_stripEntries (bl : Finset Path) (path : Path)
    (entries : List (String × Node))
    (ih : ∀ e ∈ entries, ∀ (p : Path) (w : World),
      check_dir bl p (strip e.2) w = check_dir bl p e.2 w)
    (l : Locals) (w : World) :
    check_loop bl path (stripEntries entries) l w = check_loop bl path entries l w := by
  induction entries generalizing l w with
  | nil => rfl
  | cons e rest ihr =>
    obtain ⟨name, c⟩ := e
    have ihr1 := ihr (fun e he => ih e (List.mem_cons_of_mem _ he))
    cases c with
    | file size => simp only [stripEntries, check_loop, ihr1]
    | other => simp only [stripEntries, check_loop]
    | symlink t => simp only [stripEntries, check_loop, ihr1]
    | dir sub =>
      have hc := ih (name, .dir sub) (List.mem_cons_self _ _) (path ++ [name]) w
      simp only [strip] at hc
      simp only [stripEntries, strip, check_loop, hc, ihr1]

/-- The symbolic links of a tree do not reach `check_dir`. -/
theorem check_dir_strip (bl : Finset Path) (n : Node) : ∀ (p : Path) (w : World),
    check_dir bl p (strip n) w = check_dir bl p n w := by
  induction n using Node.tree_induct with
  | file size => intro p w; rfl
  | other => intro p w; rfl
  | symlink t _ => intro p w; rfl
  | dir entries ih =>
    intro p w
    simp only [strip, check_dir, check_loop_stripEntries bl p entries ih,
      regular_files_stripEntries]

/-- C6: `check_dir` gives the same return value, `items` and `total_filesize` on
a tree as on the tree without its symbolic links, whatever the links point to,
and no path that it inserts into `items` is the path of a symbolic link. -/
theorem c6_symlinks_ignored (bl : Finset Path) (p : Path) (n : Node) (w : World) :
    check_dir bl p n w = check_dir bl p (strip n) w ∧
    (n.wf = true → ∀ b w1, check_dir bl p n w = some (b, w1) →
      ∀ q ∈ w1.bi.items, q ∉ w.bi.items →
        ∀ s, q = p ++ s → ∀ target, entryAt n s ≠ some (.symlink target)) := by
  refine ⟨(check_dir_strip bl n p w).symm, ?_⟩
  intro hwf b w1 h q hq hnew s hs target hlink
  rcases check_dir_items bl n p w b w1 h q hq with h1 | h1
  · exact hnew h1
  · obtain ⟨s1, _, hq1, hk⟩ := h1.entry hwf
    have : s1 = s := List.append_cancel_left (hq1.symm.trans hs)
    subst this
    rcases hk with ⟨size, he⟩ | ⟨sub, he, _⟩
    · rw [he] at hlink; cases hlink
    · rw [he] at hlink; cases hlink

/-- C6 at a directory with links to a file, to nothing and back to an ancestor. -/
theorem c6_symlinks_ignored_witness :
    check_dir {["A", "x"]} ["A"] c6_dir World.init
      = check_dir {["A", "x"]} ["A"] (strip c6_dir) World.init ∧
    ∀ b w1, check_dir {["A", "x"]} ["A"] c6_dir World.init = some (b, w1) →
      ∀ q ∈ w1.bi.items, q ∉ World.init.bi.items →
        ∀ s, q = ["A"] ++ s → ∀ target, entryAt c6_dir s ≠ some (.symlink target) :=
  ⟨(c6_symlinks_ignored {["A", "x"]} ["A"] c6_dir World.init).1,
   (c6_symlinks_ignored {["A", "x"]} ["A"] c6_dir World.init).2 (by decide)⟩

theorem check_dir_from_init (bl : Finset Path) (p : Path) (n : Node) (w : World) (b : Bool)
    (w1 : World) (h : check_dir bl p n w = some (b, w1)) :
    ∃ d, check_dir bl p n World.init = some (b, d) ∧ w1 = w.add d := by
  have hs := check_dir_shift bl n p w World.init
  rw [World.add_init] at hs
  rw [hs] at h
  cases hd : check_dir bl p n World.init with
  | none => rw [hd] at h; simp at h
  | some r =>
    rw [hd] at h
    simp only [Option.map_some', Option.some.injEq, Prod.mk.injEq] at h
    exact ⟨r.2, by rw [← h.1], h.2.symm⟩

theorem Agrees.child {g : Path → Nat} {p : Path} {entries : List (String × Node)}
    (h : Agrees g p (.dir entries)) (hwf : (Node.dir entries).wf = true)
    {name : String} {c : Node} (hmem : (name, c) ∈ entries) :
    Agrees g (p ++ [name]) c := by
  intro s m hs hm
  have := h (name :: s) m (by rw [entryAt_child hwf hmem]; exact hs) hm
  simpa [List.append_assoc] using this

theorem entriesHaveGit_tail {name : String} {c : Node} {rest : List (String × Node)}
    (h : entriesHaveGit ((name, c) :: rest) = false) : entriesHaveGit rest = false := by
  cases c <;> simp only [entriesHaveGit, Bool.or_eq_false_iff] at h <;> exact h.2

theorem entriesHaveGit_false {entries : List (String × Node)}
    (h : entriesHaveGit entries = false) :
    ∀ name sub, (name, Node.dir sub) ∈ entries →
      stem name ≠ ".git" ∧ hasGit (.dir sub) = false := by
  induction entries with
  | nil => intro name sub hm; cases hm
  | cons e rest ih =>
    obtain ⟨n1, c1⟩ := e
    intro name sub hm
    rcases List.mem_cons.1 hm with he | hm1
    · cases he
      simp only [entriesHaveGit, Bool.or_eq_false_iff, decide_eq_false_iff_not] at h
      exact ⟨h.1.1, h.1.2⟩
    · exact ih (entriesHaveGit_tail h) name sub hm1

theorem child_path_ne {p : Path} {a b : String} {s t : Path}
    (h : p ++ a :: s = p ++ b :: t) : a = b := by
  have := List.append_cancel_left h
  simp only [List.cons.injEq] at this
  exact this.1

theorem check_loop_sum (g : Path → Nat) (bl : Finset Path) (p : Path)
    (entries : List (String × Node))
    (hnd : (entries.map Prod.fst).Nodup)
    (hgit : entriesHaveGit entries = false)
    (hwf : ∀ e ∈ entries, e.2.wf = true)
    (hag : ∀ e ∈ entries, Agrees g (p ++ [e.1]) e.2)
    (ih : ∀ e ∈ entries, ∀ (q : Path) (b : Bool) (d : World),
      e.2.wf = true → hasGit e.2 = false → Agrees g q e.2 →
      check_dir bl q e.2 World.init = some (b, d) →
      d.bi.total_filesize
        = ((if b then 0 else treeBytes e.2 : Nat) : ULong) + ((∑ x ∈ d.bi.items, g x : Nat) : ULong))
    (l : Locals) (w : World) (exit : LoopExit)
    (hinv1 : w.bi.total_filesize = ((∑ x ∈ w.bi.items ∪ l.send_dirs, g x : Nat) : ULong))
    (hinv2 : ∀ x ∈ w.bi.items ∪ l.send_dirs, ∃ name s, x = p ++ name :: s ∧
      name ∉ entries.map Prod.fst)
    (h : check_loop bl p entries l w = some exit) :
    ∃ l1 w1, exit = .finished l1 w1 ∧
      w1.bi.total_filesize = ((∑ x ∈ w1.bi.items ∪ l1.send_dirs, g x : Nat) : ULong) := by
  induction entries generalizing l w with
  | nil =>
    simp only [check_loop, Option.some.injEq] at h
    subst h
    exact ⟨l, w, rfl, hinv1⟩
  | cons e rest ihr =>
    obtain ⟨name, c⟩ := e
    simp only [List.map_cons, List.nodup_cons] at hnd
    have hgit' : entriesHaveGit rest = false := entriesHaveGit_tail hgit
    have ihr1 := ihr hnd.2 hgit' (fun e he => hwf e (List.mem_cons_of_mem _ he))
      (fun e he => hag e (List.mem_cons_of_mem _ he))
      (fun e he => ih e (List.mem_cons_of_mem _ he))
    have weaken : ∀ x ∈ w.bi.items ∪ l.send_dirs, ∃ name1 s, x = p ++ name1 :: s ∧
        name1 ∉ rest.map Prod.fst := by
      intro x hx
      obtain ⟨n1, s, hx1, hn1⟩ := hinv2 x hx
      exact ⟨n1, s, hx1, fun hmem => hn1 (by simp only [List.map_cons]; exact List.mem_cons_of_mem _ hmem)⟩
    have fresh : ∀ x ∈ w.bi.items ∪ l.send_dirs, ∀ s, x ≠ p ++ name :: s := by
      intro x hx s hEq
      obtain ⟨n1, s1, hx1, hn1⟩ := hinv2 x hx
      have : n1 = name := child_path_ne (hx1.symm.trans hEq)
      subst this
      exact hn1 (by simp)
    cases c with
    | file size =>
      simp only [check_loop] at h
      exact ihr1 ⟨ulong_add l.dir_file_size size, l.send_dirs, l.mixed_flag⟩ w hinv1 weaken h
    | other => simp [check_loop] at h
    | symlink t =>
      simp only [check_loop] at h
      exact ihr1 l w hinv1 weaken h
    | dir sub =>
      obtain ⟨hstem, hsubgit⟩ := entriesHaveGit_false hgit name sub (List.mem_cons_self _ _)
      have hcwf := hwf (name, .dir sub) (List.mem_cons_self _ _)
      have hcag := hag (name, .dir sub) (List.mem_cons_self _ _)
      simp only at hcwf hcag
      simp only [check_loop, if_neg hstem] at h
      cases hc : check_dir bl (p ++ [name]) (.dir sub) w with
      | none => rw [hc] at h; simp at h
      | some r =>
        obtain ⟨b, w0⟩ := r
        rw [hc] at h
        obtain ⟨d, hd, hw0⟩ := check_dir_from_init bl _ _ _ _ _ hc
        have hsum := ih (name, .dir sub) (List.mem_cons_self _ _) _ b d hcwf hsubgit hcag hd
        have hditems : ∀ x ∈ d.bi.items, ∃ s, x = p ++ name :: s := by
          intro x hx
          rcases check_dir_items bl _ _ _ _ _ hd x hx with h1 | h1
          · simp [World.init] at h1
          · obtain ⟨s, _, hxs, _⟩ := h1.entry hcwf
            exact ⟨s, by rw [hxs]; simp [List.append_assoc]⟩
        cases b with
        | true =>
          simp only at h
          simp only [if_true, Nat.cast_zero, zero_add] at hsum
          refine ihr1 ⟨l.dir_file_size, l.send_dirs, true⟩ w0 ?_ ?_ h
          · subst hw0
            simp only [World.add]
            have hdisj : Disjoint (w.bi.items ∪ l.send_dirs) d.bi.items := by
              rw [Finset.disjoint_left]
              intro x hx hxd
              obtain ⟨s, hs⟩ := hditems x hxd
              exact fresh x hx s hs
            have hset : w.bi.items ∪ d.bi.items ∪ l.send_dirs
                = (w.bi.items ∪ l.send_dirs) ∪ d.bi.items := by
              ext x; simp only [Finset.mem_union]; tauto
            rw [hset, Finset.sum_union hdisj, Nat.cast_add, ← hinv1, hsum]
          · subst hw0
            intro x hx
            simp only [World.add, Finset.mem_union] at hx
            rcases hx with (hx | hx) | hx
            · exact weaken x (Finset.mem_union_left _ hx)
            · obtain ⟨s, hs⟩ := hditems x hx
              exact ⟨name, s, hs, hnd.1⟩
            · exact weaken x (Finset.mem_union_right _ hx)
        | false =>
          simp only at h
          have hf := check_dir_false_items bl _ _ _ _ hc
          have hgq : g (p ++ [name]) = entriesBytes sub := by
            have := hcag [] (.dir sub) rfl rfl
            simpa [nodeBytes] using this
          refine ihr1 ⟨l.dir_file_size, insert (p ++ [name]) l.send_dirs, l.mixed_flag⟩ w0
            ?_ ?_ h
          · simp only
            have hnot : p ++ [name] ∉ w.bi.items ∪ l.send_dirs :=
              fun hx => fresh _ hx [] rfl
            have hset : w0.bi.items ∪ insert (p ++ [name]) l.send_dirs
                = insert (p ++ [name]) (w.bi.items ∪ l.send_dirs) := by
              rw [hf.1]
              ext x; simp only [Finset.mem_union, Finset.mem_insert]; tauto
            rw [hset, Finset.sum_insert hnot, Nat.cast_add, ← hinv1, hf.2, hgq]
            simp only [treeBytes]
            ring
          · intro x hx
            simp only [Finset.mem_union, Finset.mem_insert, hf.1] at hx
            rcases hx with hx | hx | hx
            · exact weaken x (Finset.mem_union_left _ hx)
            · exact ⟨name, [], hx, hnd.1⟩
            · exact weaken x (Finset.mem_union_right _ hx)

/-- In a tree without `.git` directories, what a call of `check_dir` adds to
`total_filesize` is, modulo `2^64`, the byte count of the directories it adds to
`items`, and of the directory itself when it returns `false`. -/
theorem check_dir_sum (g : Path → Nat) (bl : Finset Path) (n : Node) :
    ∀ (p : Path) (b : Bool) (d : World),
    n.wf = true → hasGit n = false → Agrees g p n →
    check_dir bl p n World.init = some (b, d) →
    d.bi.total_filesize
      = ((if b then 0 else treeBytes n : Nat) : ULong) + ((∑ x ∈ d.bi.items, g x : Nat) : ULong) := by
  induction n using Node.tree_induct with
  | file size =>
    intro p b d _ _ _ h
    simp only [check_dir] at h
    split at h
    · simp only [Option.some.injEq, Prod.mk.injEq] at h
      obtain ⟨rfl, rfl⟩ := h
      simp [World.init]
    · simp at h
  | other =>
    intro p b d _ _ _ h
    simp only [check_dir] at h
    split at h
    · simp only [Option.some.injEq, Prod.mk.injEq] at h
      obtain ⟨rfl, rfl⟩ := h
      simp [World.init]
    · simp at h
  | symlink t _ =>
    intro p b d _ _ _ h
    simp only [check_dir] at h
    split at h
    · simp only [Option.some.injEq, Prod.mk.injEq] at h
      obtain ⟨rfl, rfl⟩ := h
      simp [World.init]
    · simp at h
  | dir entries ih =>
    intro p b d hwf hgit hag h
    cases b with
    | false =>
      have hf := check_dir_false_items bl _ _ _ _ h
      simp only [World.init] at hf
      simp [hf.1, hf.2]
    | true =>
      simp only [check_dir] at h
      split at h
      · simp only [Option.some.injEq, Prod.mk.injEq, true_and] at h
        subst h
        simp [World.init]
      · rename_i hbl
        simp only [hasGit] at hgit
        cases hl : check_loop bl p entries ⟨0, ∅, false⟩ World.init with
        | none => rw [hl] at h; simp at h
        | some exit =>
          rw [hl] at h
          obtain ⟨l1, w1, he, hsum⟩ := check_loop_sum g bl p entries (wf_dir hwf).1 hgit
            (wf_dir hwf).2 (fun e he => hag.child hwf (by cases e; exact he)) ih
            ⟨0, ∅, false⟩ World.init exit (by simp [World.init])
            (by intro x hx; simp [World.init] at hx) hl
          subst he
          simp only at h
          split at h
          · simp only [Option.some.injEq, Prod.mk.injEq, true_and] at h
            subst h
            simp only [warn_large_bi, if_true, Nat.cast_zero, zero_add, hsum]
            congr 1
            apply Finset.sum_subset Finset.subset_union_left
            intro x hx hnx
            simp only [Finset.mem_union] at hx
            rcases hx with hx | hx
            · exact absurd (Finset.mem_union.2 hx) hnx
            · obtain ⟨name, size, hm, rfl⟩ := (mem_regular_files p entries x).1 hx
              have := (hag.child hwf hm) [] (.file size) rfl rfl
              simpa [nodeBytes] using this
          · simp at h

theorem filePaths_le (n : Node) : ∀ (p f : Path), f ∈ filePaths p n → p <+: f := by
  induction n using Node.tree_induct with
  | file size =>
    intro p f hf
    simp only [filePaths, Finset.mem_singleton] at hf
    subst hf
    exact List.prefix_refl _
  | other => intro p f hf; simp [filePaths] at hf
  | symlink t _ => intro p f hf; simp [filePaths] at hf
  | dir entries ih =>
    intro p f hf
    simp only [filePaths] at hf
    induction entries with
    | nil => simp [entriesFilePaths] at hf
    | cons e rest ihr =>
      obtain ⟨name, c⟩ := e
      simp only [entriesFilePaths, Finset.mem_union] at hf
      rcases hf with hf | hf
      · have := ih (name, c) (List.mem_cons_self _ _) (p ++ [name]) f hf
        exact (List.prefix_append p [name]).trans this
      · exact ihr (fun e he => ih e (List.mem_cons_of_mem _ he)) hf

theorem mem_entriesFilePaths {p f : Path} {entries : List (String × Node)}
    (hf : f ∈ entriesFilePaths p entries) :
    ∃ name s, f = p ++ name :: s ∧ name ∈ entries.map Prod.fst := by
  induction entries with
  | nil => simp [entriesFilePaths] at hf
  | cons e rest ih =>
    obtain ⟨name, c⟩ := e
    simp only [entriesFilePaths, Finset.mem_union] at hf
    rcases hf with hf | hf
    · obtain ⟨s, hs⟩ := filePaths_le c (p ++ [name]) f hf
      exact ⟨name, s, by rw [← hs]; simp [List.append_assoc], by simp⟩
    · obtain ⟨n1, s, hs, hn⟩ := ih hf
      exact ⟨n1, s, hs, by simp only [List.map_cons]; exact List.mem_cons_of_mem _ hn⟩

theorem entriesFilePaths_sum (sz : Path → Nat) (p : Path) (entries : List (String × Node))
    (hnd : (entries.map Prod.fst).Nodup)
    (ih : ∀ e ∈ entries, ∑ f ∈ filePaths (p ++ [e.1]) e.2, sz f = treeBytes e.2) :
    ∑ f ∈ entriesFilePaths p entries, sz f = entriesBytes entries := by
  induction entries with
  | nil => simp [entriesFilePaths, entriesBytes]
  | cons e rest ihr =>
    obtain ⟨name, c⟩ := e
    simp only [List.map_cons, List.nodup_cons] at hnd
    have hdisj : Disjoint (filePaths (p ++ [name]) c) (entriesFilePaths p rest) := by
      rw [Finset.disjoint_left]
      intro f hf hfr
      obtain ⟨s, hs⟩ := filePaths_le c (p ++ [name]) f hf
      obtain ⟨n1, s1, hs1, hn1⟩ := mem_entriesFilePaths hfr
      have : name = n1 := by
        apply child_path_ne (p := p) (s := s) (t := s1)
        rw [← hs1, ← hs]; simp [List.append_assoc]
      subst this
      exact hnd.1 hn1
    simp only [entriesFilePaths, entriesBytes]
    rw [Finset.sum_union hdisj, ihr hnd.2 (fun e he => ih e (List.mem_cons_of_mem _ he))]
    have := ih (name, c) (List.mem_cons_self _ _)
    simp only at this
    rw [this]

/-- The sizes of the regular files at or below a node add up to its bytes. -/
theorem filePaths_sum (sz : Path → Nat) (n : Node) : ∀ (p : Path), n.wf = true →
    (∀ s size, entryAt n s = some (.file size) → sz (p ++ s) = size) →
    ∑ f ∈ filePaths p n, sz f = treeBytes n := by
  induction n using Node.tree_induct with
  | file size =>
    intro p _ hsz
    have := hsz [] size rfl
    simpa [filePaths, treeBytes] using this
  | other => intro p _ _; simp [filePaths, treeBytes]
  | symlink t _ => intro p _ _; simp [filePaths, treeBytes]
  | dir entries ih =>
    intro p hwf hsz
    simp only [filePaths, treeBytes]
    apply entriesFilePaths_sum sz p entries (wf_dir hwf).1
    intro e he
    obtain ⟨name, c⟩ := e
    apply ih (name, c) he (p ++ [name]) ((wf_dir hwf).2 _ he)
    intro s size hs
    have := hsz (name :: s) size (by rw [entryAt_child hwf he]; exact hs)
    simpa [List.append_assoc] using this

theorem dirBytes_eq_filesUnder (fs : Node) (hwf : fs.wf = true) (q : Path) :
    ∑ f ∈ filesUnder fs q, fileSize fs f = dirBytes fs q := by
  unfold filesUnder dirBytes
  cases hl : lookup fs q with
  | none => simp
  | some n =>
    cases n with
    | file size => simp
    | other => simp
    | symlink t => simp
    | dir entries =>
      simp only
      have hn := wf_lookup fs q _ hwf hl
      have := filePaths_sum (fileSize fs) (.dir entries) q hn (by
        intro s size hs
        have := lookup_entry fs q s _ _ hl hs rfl
        simp [fileSize, this])
      simpa [filePaths, treeBytes] using this

theorem dirBytes_agrees (fs : Node) (p : Path) (n : Node) (hp : lookup fs p = some n) :
    Agrees (dirBytes fs) p n := by
  intro s m hs hm
  have := lookup_entry fs p s n m hp hs hm
  unfold dirBytes
  rw [this]
  cases m <;> rfl

theorem prepare_loop_sum (fs : Node) (bl : Finset Path) (srcs : List Path)
    (hwf : fs.wf = true) (hun : unrelated srcs)
    (hgit : ∀ src ∈ srcs, ∀ entries, lookup fs src = some (.dir entries) →
      hasGit (.dir entries) = false)
    (w w1 : World)
    (hinv1 : w.bi.total_filesize = ((∑ x ∈ w.bi.items, dirBytes fs x : Nat) : ULong))
    (hinv2 : ∀ x ∈ w.bi.items, ∀ r ∈ srcs, ¬ r <+: x)
    (h : prepare_loop fs bl srcs w = some w1) :
    w1.bi.total_filesize = ((∑ x ∈ w1.bi.items, dirBytes fs x : Nat) : ULong) := by
  induction srcs generalizing w with
  | nil =>
    simp only [prepare_loop, Option.some.injEq] at h
    subst h
    exact hinv1
  | cons src rest ih =>
    have hun' : unrelated rest := (List.pairwise_cons.1 hun).2
    have hsrc : ∀ r ∈ rest, ¬ src <+: r ∧ ¬ r <+: src := (List.pairwise_cons.1 hun).1
    have hgit' : ∀ r ∈ rest, ∀ entries, lookup fs r = some (.dir entries) →
        hasGit (.dir entries) = false := fun r hr => hgit r (List.mem_cons_of_mem _ hr)
    have hnot : src ∉ w.bi.items :=
      fun hx => hinv2 src hx src (List.mem_cons_self _ _) (List.prefix_refl _)
    have below : ∀ x, src <+: x → ∀ r ∈ rest, ¬ r <+: x := by
      intro x hx r hr hrx
      rcases Nat.le_total src.length r.length with hle | hle
      · exact (hsrc r hr).1 (List.prefix_of_prefix_length_le hx hrx hle)
      · exact (hsrc r hr).2 (List.prefix_of_prefix_length_le hrx hx hle)
    have old : ∀ x ∈ w.bi.items, ∀ r ∈ rest, ¬ r <+: x :=
      fun x hx r hr => hinv2 x hx r (List.mem_cons_of_mem _ hr)
    simp only [prepare_loop] at h
    cases hs : prepare_step fs bl src w with
    | none => rw [hs] at h; simp at h
    | some w0 =>
      rw [hs] at h
      simp only at h
      refine ih hun' hgit' w0 ?_ ?_ h
      · unfold prepare_step at hs
        split at hs
        · rename_i entries hl
          cases hc : check_dir bl src (.dir entries) w with
          | none => rw [hc] at hs; simp at hs
          | some r =>
            obtain ⟨b, w2⟩ := r
            rw [hc] at hs
            obtain ⟨d, hd, hw2⟩ := check_dir_from_init bl _ _ _ _ _ hc
            have hn := wf_lookup fs src _ hwf hl
            have hsum := check_dir_sum (dirBytes fs) bl _ src b d hn
              (hgit src (List.mem_cons_self _ _) entries hl) (dirBytes_agrees fs src _ hl) hd
            cases b with
            | true =>
              simp only [Option.some.injEq] at hs
              subst hs hw2
              simp only [if_true, Nat.cast_zero, zero_add] at hsum
              have hdisj : Disjoint w.bi.items d.bi.items := by
                rw [Finset.disjoint_left]
                intro x hx hxd
                rcases check_dir_items bl _ _ _ _ _ hd x hxd with h1 | h1
                · simp [World.init] at h1
                · obtain ⟨s, _, hxs, _⟩ := h1.entry hn
                  exact hinv2 x hx src (List.mem_cons_self _ _) ⟨s, hxs.symm⟩
              simp only [World.add]
              rw [Finset.sum_union hdisj, Nat.cast_add, ← hinv1, hsum]
            | false =>
              simp only [Option.some.injEq] at hs
              subst hs
              have hf := check_dir_false_items bl _ _ _ _ hc
              simp only
              rw [hf.1, Finset.sum_insert hnot, hf.2, hinv1]
              have : dirBytes fs src = entriesBytes entries := by
                unfold dirBytes; rw [hl]
              rw [this]
              simp only [treeBytes]
              push_cast
              ring
        · rename_i hnd
          simp only [Option.some.injEq] at hs
          subst hs
          simp only
          have : dirBytes fs src = 0 := by
            unfold dirBytes
            split
            · rename_i entries hl
              exact absurd hl (hnd entries)
            · rfl
          rw [Finset.sum_insert hnot, this, hinv1]
          simp
      · intro x hx
        rcases prepare_step_items fs bl src w w0 hs x hx with h1 | h1
        · exact old x h1
        · exact below x (h1.root_le hwf)

/-- With unrelated roots and no `.git` directory below them, `total_filesize`
is the byte count of the directories in `items`, summed modulo `2^64`. -/
theorem total_eq_sum_dirBytes (fs : Node) (config : Config) (bi : BackupInfo)
    (hwf : fs.wf = true) (hun : unrelated config.srcs)
    (hgit : ∀ src ∈ config.srcs, ∀ entries, lookup fs src = some (.dir entries) →
      hasGit (.dir entries) = false)
    (h : prepare_backup fs config = some bi) :
    bi.total_filesize = ((∑ x ∈ bi.items, dirBytes fs x : Nat) : ULong) := by
  unfold prepare_backup at h
  cases hl : prepare_loop fs config.blacklist config.srcs World.init with
  | none => rw [hl] at h; simp at h
  | some w1 =>
    rw [hl] at h
    simp only [Option.map_some', Option.some.injEq] at h
    subst h
    exact prepare_loop_sum fs config.blacklist config.srcs hwf hun hgit World.init w1
      (by simp [World.init]) (by intro x hx; simp [World.init] at hx) hl

theorem filesUnder_le (fs : Node) (q f : Path) (hf : f ∈ filesUnder fs q) : q <+: f := by
  unfold filesUnder at hf
  split at hf
  · obtain ⟨name, s, hs, _⟩ := mem_entriesFilePaths hf
    exact ⟨name :: s, hs.symm⟩
  · simp at hf

/-- C2, counterexample: with the roots `/A` and `/A/B` the 10 bytes of `/A/B/f`
are counted twice in `total_filesize`; and with the single root `/A` over a
directory `/A/B` whose files have `2^64` bytes together, `total_filesize` is 0
while the files under the item `/A/B` have `2^64` bytes. -/
theorem c2_nested_roots_count_twice :
    (∃ bi, prepare_backup c5_fs ⟨[["A"], ["A", "B"]], ["backup"], ∅, "-a"⟩ = some bi ∧
      bi.total_filesize.val = 20 ∧ coveredBytes c5_fs bi.items = 10) ∧
    (∃ bi, prepare_backup c1_wrap_fs ⟨[["A"]], ["backup"], {["A", "C", "x"]}, "-a"⟩ = some bi ∧
      bi.total_filesize.val = 0 ∧
      coveredBytes c1_wrap_fs bi.items = 18446744073709551616) :=
  ⟨⟨_, rfl, by decide, by decide⟩, ⟨_, rfl, by decide, by decide⟩⟩

/-- C2, amended: when no root is another root or lies below one and no directory
below a root has stem `.git`, `total_filesize` is, modulo `2^64`, the sum of the
sizes of the regular files that lie under the directories in `items`, each
counted once; it is that sum itself when the sum is below `2^64`. -/
theorem c2_total_is_covered_bytes (fs : Node) (config : Config) (bi : BackupInfo)
    (hwf : fs.wf = true) (hun : unrelated config.srcs)
    (hgit : ∀ src ∈ config.srcs, ∀ entries, lookup fs src = some (.dir entries) →
      hasGit (.dir entries) = false)
    (h : prepare_backup fs config = some bi) :
    bi.total_filesize.val = coveredBytes fs bi.items % 2 ^ 64 ∧
    (coveredBytes fs bi.items < 2 ^ 64 →
      bi.total_filesize.val = coveredBytes fs bi.items) := by
  suffices hcov : coveredBytes fs bi.items = ∑ x ∈ bi.items, dirBytes fs x by
    rw [total_eq_sum_dirBytes fs config bi hwf hun hgit h, hcov]
    exact ⟨ulong_val_cast _, fun hlt => ulong_val_cast_of_lt _ hlt⟩
  unfold coveredBytes
  rw [Finset.sum_biUnion]
  · exact Finset.sum_congr rfl (fun q _ => dirBytes_eq_filesUnder fs hwf q)
  · intro q1 hq1 q2 hq2 hne
    simp only [Function.onFun]
    rw [Finset.disjoint_left]
    intro f hf1 hf2
    have h1 := filesUnder_le fs q1 f hf1
    have h2 := filesUnder_le fs q2 f hf2
    apply hne
    rcases Nat.le_total q1.length q2.length with hle | hle
    · exact items_antichain fs config bi hwf hun h q1 q2 hq1 hq2
        (List.prefix_of_prefix_length_le h1 h2 hle)
    · exact (items_antichain fs config bi hwf hun h q2 q1 hq2 hq1
        (List.prefix_of_prefix_length_le h2 h1 hle)).symm

/-- C2 amended, at the scenario of C1: 1000 bytes, those of `/A/B`. -/
theorem c2_total_is_covered_bytes_witness :
    ∃ bi, prepare_backup c1_fs ⟨[["A"]], ["backup"], {["A", "C", "x"]}, "-a"⟩ = some bi ∧
      (bi.total_filesize.val = coveredBytes c1_fs bi.items % 2 ^ 64 ∧
        (coveredBytes c1_fs bi.items < 2 ^ 64 →
          bi.total_filesize.val = coveredBytes c1_fs bi.items)) ∧
      bi.total_filesize.val = 1000 :=
  ⟨_, rfl,
    c2_total_is_covered_bytes c1_fs ⟨[["A"]], ["backup"], {["A", "C", "x"]}, "-a"⟩ _
      (by decide) (by simp [unrelated])
      (by
        intro src hsrc entries hl
        simp only [List.mem_singleton] at hsrc
        subst hsrc
        cases hl
        rfl) rfl,
    by decide⟩

theorem check_dir_items_mono (bl : Finset Path) (p : Path) (n : Node) (w : World) (b : Bool)
    (w1 : World) (h : check_dir bl p n w = some (b, w1)) : w.bi.items ⊆ w1.bi.items := by
  obtain ⟨d, _, hw⟩ := check_dir_from_init bl p n w b w1 h
  subst hw
  exact Finset.subset_union_left

theorem prepare_step_plain (fs : Node) (bl : Finset Path) (src : Path) (w : World)
    (h : ∀ entries, lookup fs src ≠ some (.dir entries)) :
    prepare_step fs bl src w
      = some { w with bi := { w.bi with items := insert src w.bi.items } } := by
  unfold prepare_step
  split
  · rename_i entries hl
    exact absurd hl (h entries)
  · rfl

theorem prepare_step_mono (fs : Node) (bl : Finset Path) (src : Path) (w w1 : World)
    (h : prepare_step fs bl src w = some w1) : w.bi.items ⊆ w1.bi.items := by
  unfold prepare_step at h
  split at h
  · split at h
    · simp at h
    · rename_i w0 hc
      simp only [Option.some.injEq] at h
      subst h
      exact check_dir_items_mono _ _ _ _ _ _ hc
    · rename_i w0 hc
      simp only [Option.some.injEq] at h
      subst h
      exact (check_dir_items_mono _ _ _ _ _ _ hc).trans (Finset.subset_insert _ _)
  · simp only [Option.some.injEq] at h
    subst h
    exact Finset.subset_insert _ _

theorem prepare_loop_mono (fs : Node) (bl : Finset Path) (srcs : List Path) (w w1 : World)
    (h : prepare_loop fs bl srcs w = some w1) : w.bi.items ⊆ w1.bi.items := by
  induction srcs generalizing w with
  | nil =>
    simp only [prepare_loop, Option.some.injEq] at h
    subst h
    exact Finset.Subset.refl _
  | cons src rest ih =>
    simp only [prepare_loop] at h
    cases hs : prepare_step fs bl src w with
    | none => rw [hs] at h; simp at h
    | some w0 =>
      rw [hs] at h
      exact (prepare_step_mono fs bl src w w0 hs).trans (ih w0 h)

theorem prepare_loop_plain_mem (fs : Node) (bl : Finset Path) (srcs : List Path) (w w1 : World)
    (h : prepare_loop fs bl srcs w = some w1) (src : Path) (hsrc : src ∈ srcs)
    (hp : ∀ entries, lookup fs src ≠ some (.dir entries)) : src ∈ w1.bi.items := by
  induction srcs generalizing w with
  | nil => cases hsrc
  | cons r rest ih =>
    simp only [prepare_loop] at h
    cases hs : prepare_step fs bl r w with
    | none => rw [hs] at h; simp at h
    | some w0 =>
      rw [hs] at h
      rcases List.mem_cons.1 hsrc with he | hm
      · subst he
        rw [prepare_step_plain fs bl src w hp] at hs
        simp only [Option.some.injEq] at hs
        subst hs
        exact prepare_loop_mono fs bl rest _ w1 h (Finset.mem_insert_self _ _)
      · exact ih w0 h hm

theorem prepare_loop_all_plain (fs : Node) (bl : Finset Path) (srcs : List Path) (w : World)
    (hp : ∀ src ∈ srcs, ∀ entries, lookup fs src ≠ some (.dir entries)) :
    prepare_loop fs bl srcs w
      = some ⟨⟨w.bi.items ∪ srcs.toFinset, w.bi.total_filesize⟩, w.warnings⟩ := by
  induction srcs generalizing w with
  | nil => simp [prepare_loop]
  | cons r rest ih =>
    simp only [prepare_loop, prepare_step_plain fs bl r w (hp r (List.mem_cons_self _ _))]
    rw [ih _ (fun s hs => hp s (List.mem_cons_of_mem _ hs))]
    simp only [List.toFinset_cons, Option.some.injEq, World.mk.injEq, BackupInfo.mk.injEq,
      and_true]
    ext x
    simp only [Finset.mem_union, Finset.mem_insert]
    tauto

/-- C11: a root that is no directory is inserted into `items` as it is; its turn
does nothing else (no call of `check_dir`, no byte added, no failure), it stays
in the final `items`, and with only such roots `items` is the set of roots and
`total_filesize` is 0. -/
theorem c11_plain_roots (fs : Node) (config : Config) :
    (∀ src w, (∀ entries, lookup fs src ≠ some (.dir entries)) →
      prepare_step fs config.blacklist src w
        = some { w with bi := { w.bi with items := insert src w.bi.items } }) ∧
    (∀ bi, prepare_backup fs config = some bi →
      ∀ src ∈ config.srcs, (∀ entries, lookup fs src ≠ some (.dir entries)) →
        src ∈ bi.items) ∧
    ((∀ src ∈ config.srcs, ∀ entries, lookup fs src ≠ some (.dir entries)) →
      prepare_backup fs config = some ⟨config.srcs.toFinset, 0⟩) := by
  refine ⟨fun src w h => prepare_step_plain fs _ src w h, ?_, ?_⟩
  · intro bi h src hsrc hp
    unfold prepare_backup at h
    cases hl : prepare_loop fs config.blacklist config.srcs World.init with
    | none => rw [hl] at h; simp at h
    | some w1 =>
      rw [hl] at h
      simp only [Option.map_some', Option.some.injEq] at h
      subst h
      exact prepare_loop_plain_mem fs _ _ _ w1 hl src hsrc hp
  · intro hp
    unfold prepare_backup
    rw [prepare_loop_all_plain fs _ _ _ hp]
    simp [World.init]

/-- C11 at the roots `/f` (a file), `/p` (a fifo), `/l` (a dangling link) and
`/gone` (nothing), the first of them blacklisted. -/
theorem c11_plain_roots_witness :
    prepare_backup c11_fs ⟨[["f"], ["p"], ["l"], ["gone"]], ["backup"], {["f"]}, "-a"⟩
      = some ⟨{["f"], ["p"], ["l"], ["gone"]}, 0⟩ :=
  (c11_plain_roots c11_fs ⟨[["f"], ["p"], ["l"], ["gone"]], ["backup"], {["f"]}, "-a"⟩).2.2
    (by
      intro src hsrc entries
      simp only [List.mem_cons, List.mem_singleton, List.not_mem_nil, or_false] at hsrc
      rcases hsrc with rfl | rfl | rfl | rfl <;> intro h <;> cases h)

theorem sizeBelow_append (p : Path) (n : Node) (s : Path) (size : Nat)
    (h : entryAt n s = some (.file size)) : sizeBelow p n (p ++ s) = size := by
  unfold sizeBelow
  rw [List.drop_left, h]

/-- C14 (amended): when the loop of `check_dir` on a directory that is not
blacklisted runs to the end with the mixed flag unset, the call returns `false`,
adds nothing to `items` and adds to `total_filesize`, modulo `2^64`, the sizes of
all regular files of the subtree: the sizes of the direct files at its own
level, the rest in the calls on the subdirectories.  The increase is exactly
that sum when the new total stays below `2^64`.  With pairwise different names
the bytes of the subtree are the sum over the paths of its regular files, each
path once. -/
theorem c14_bottom_up_sizes (bl : Finset Path) (p : Path) (entries : List (String × Node))
    (w : World) (l : Locals) (w0 : World) (hbl : p ∉ bl)
    (hloop : check_loop bl p entries ⟨0, ∅, false⟩ w = some (.finished l w0))
    (hmixed : l.mixed_flag = false) :
    (∃ w1, check_dir bl p (.dir entries) w = some (false, w1) ∧
      w1.bi.items = w.bi.items ∧
      w1.bi.total_filesize.val
        = (w.bi.total_filesize.val + treeBytes (.dir entries)) % 2 ^ 64 ∧
      (w.bi.total_filesize.val + treeBytes (.dir entries) < 2 ^ 64 →
        w1.bi.total_filesize.val = w.bi.total_filesize.val + treeBytes (.dir entries)) ∧
      w1.bi.total_filesize.val
        = (w0.bi.total_filesize.val + directBytes entries) % 2 ^ 64) ∧
    (w0.bi.total_filesize.val + directBytes entries) % 2 ^ 64
      = (w.bi.total_filesize.val + entriesBytes entries) % 2 ^ 64 ∧
    ((Node.dir entries).wf = true →
      treeBytes (.dir entries)
        = ∑ f ∈ filePaths p (.dir entries), sizeBelow p (.dir entries) f) := by
  have hsize := check_loop_dir_file_size bl p entries _ l w w0 hloop
  simp only [zero_add] at hsize
  have hc : check_dir bl p (.dir entries) w
      = some (false, { warn_large p l.dir_file_size w0 with bi :=
          { (warn_large p l.dir_file_size w0).bi with
            total_filesize := ulong_add (warn_large p l.dir_file_size w0).bi.total_filesize
              l.dir_file_size.val } }) := by
    simp only [check_dir, if_neg hbl, hloop, hmixed]
    rfl
  have hf := check_dir_false_items bl _ _ _ _ hc
  have htree : ({ warn_large p l.dir_file_size w0 with bi :=
          { (warn_large p l.dir_file_size w0).bi with
            total_filesize := ulong_add (warn_large p l.dir_file_size w0).bi.total_filesize
              l.dir_file_size.val } } : World).bi.total_filesize.val
      = (w.bi.total_filesize.val + treeBytes (.dir entries)) % 2 ^ 64 := by
    rw [hf.2]; exact ulong_val_add_cast _ _
  have hdirect : ({ warn_large p l.dir_file_size w0 with bi :=
          { (warn_large p l.dir_file_size w0).bi with
            total_filesize := ulong_add (warn_large p l.dir_file_size w0).bi.total_filesize
              l.dir_file_size.val } } : World).bi.total_filesize.val
      = (w0.bi.total_filesize.val + directBytes entries) % 2 ^ 64 := by
    simp only [warn_large_bi, ulong_add_val, hsize]
    exact ulong_val_add_cast _ _
  refine ⟨⟨_, hc, hf.1, htree, ?_, hdirect⟩, ?_, ?_⟩
  · intro hlt
    rw [htree, Nat.mod_eq_of_lt hlt]
  · rw [← hdirect, htree]
    simp only [treeBytes]
  · intro hwf
    exact (filePaths_sum (sizeBelow p (.dir entries)) (.dir entries) p hwf
      (fun s size hs => sizeBelow_append p _ s size hs)).symm

/-- C14 at the directory `/A` with `/A/f` (3 bytes) and `/A/D/g` (4 bytes). -/
theorem c14_bottom_up_sizes_witness :
    ∃ w1, check_dir ∅ ["A"] (.dir c14_dir) World.init = some (false, w1) ∧
      w1.bi.items = World.init.bi.items ∧
      w1.bi.total_filesize.val
        = (World.init.bi.total_filesize.val + treeBytes (.dir c14_dir)) % 2 ^ 64 ∧
      (World.init.bi.total_filesize.val + treeBytes (.dir c14_dir) < 2 ^ 64 →
        w1.bi.total_filesize.val
          = World.init.bi.total_filesize.val + treeBytes (.dir c14_dir)) ∧
      w1.bi.total_filesize.val = (4 + directBytes c14_dir) % 2 ^ 64 :=
  (c14_bottom_up_sizes ∅ ["A"] c14_dir World.init ⟨3, {["A", "D"]}, false⟩
    ⟨⟨∅, 4⟩, []⟩ (by decide) rfl rfl).1

/-- C14, counterexample: a directory with three regular files of `2^63 - 1` bytes
each is found sendable (the loop ends with the mixed flag unset and `check_dir`
returns `false`), but `total_filesize` goes from 0 to `2^63 - 3`, while the
sizes of the files of the subtree sum to `3 * (2^63 - 1)`. -/
theorem c14_total_wraps :
    ∃ l w0 w1,
      check_loop ∅ ["A"] c14_wrap_dir ⟨0, ∅, false⟩ World.init = some (.finished l w0) ∧
      l.mixed_flag = false ∧
      check_dir ∅ ["A"] (.dir c14_wrap_dir) World.init = some (false, w1) ∧
      World.init.bi.total_filesize.val = 0 ∧
      w1.bi.total_filesize.val = 9223372036854775805 ∧
      treeBytes (.dir c14_wrap_dir) = 27670116110564327421 :=
  ⟨_, _, _, rfl, rfl, rfl, rfl, by decide, by decide⟩

theorem warn_large_warnings (path : Path) (size : ULong) (w : World) :
    (warn_large path size w).warnings
      = w.warnings ++ (if size.val > large_warning_size then [(path, size)] else []) := by
  unfold warn_large
  split <;> simp

theorem check_loop_warnings (bl : Finset Path) (path : Path) (entries : List (String × Node))
    (ih : ∀ e ∈ entries, ∀ (p : Path) (w : World) (b : Bool) (w1 : World),
      check_dir bl p e.2 w = some (b, w1) →
      ∃ ws, w1.warnings = w.warnings ++ ws ∧ ∀ x ∈ ws, p <+: x.1)
    (l : Locals) (w : World) (exit : LoopExit)
    (h : check_loop bl path entries l w = some exit) :
    ∃ ws, exit.world.warnings = w.warnings ++ ws ∧
      ∀ x ∈ ws, ∃ name s, x.1 = path ++ name :: s := by
  induction entries generalizing l w with
  | nil =>
    simp only [check_loop, Option.some.injEq] at h
    subst h
    exact ⟨[], by simp [LoopExit.world], by simp⟩
  | cons e rest ihr =>
    obtain ⟨name, c⟩ := e
    have ihr1 := ihr (fun e he => ih e (List.mem_cons_of_mem _ he))
    cases c with
    | file size => simp only [check_loop] at h; exact ihr1 _ _ h
    | other => simp [check_loop] at h
    | symlink t => simp only [check_loop] at h; exact ihr1 _ _ h
    | dir sub =>
      simp only [check_loop] at h
      split at h
      · simp only [Option.some.injEq] at h
        subst h
        exact ⟨[], by simp [LoopExit.world], by simp⟩
      · cases hc : check_dir bl (path ++ [name]) (.dir sub) w with
        | none => rw [hc] at h; simp at h
        | some r =>
          obtain ⟨b, w0⟩ := r
          rw [hc] at h
          obtain ⟨ws0, hw0, hp0⟩ := ih (name, .dir sub) (List.mem_cons_self _ _) _ _ _ _ hc
          have key : ∀ l0, check_loop bl path rest l0 w0 = some exit →
              ∃ ws, exit.world.warnings = w.warnings ++ ws ∧
                ∀ x ∈ ws, ∃ name s, x.1 = path ++ name :: s := by
            intro l0 h0
            obtain ⟨ws1, hw1, hp1⟩ := ihr1 l0 w0 h0
            refine ⟨ws0 ++ ws1, by rw [hw1, hw0, List.append_assoc], ?_⟩
            intro x hx
            rcases List.mem_append.1 hx with hx | hx
            · obtain ⟨s, hs⟩ := hp0 x hx
              exact ⟨name, s, by rw [← hs]; simp [List.append_assoc]⟩
            · exact hp1 x hx
          cases b with
          | true => exact key _ h
          | false => exact key _ h

/-- The warnings of a call of `check_dir` name the directory of the call or
directories below it. -/
theorem check_dir_warnings (bl : Finset Path) (n : Node) :
    ∀ (p : Path) (w : World) (b : Bool) (w1 : World),
    check_dir bl p n w = some (b, w1) →
    ∃ ws, w1.warnings = w.warnings ++ ws ∧ ∀ x ∈ ws, p <+: x.1 := by
  induction n using Node.tree_induct with
  | file size =>
    intro p w b w1 h
    simp only [check_dir] at h
    split at h
    · simp only [Option.some.injEq, Prod.mk.injEq] at h
      exact ⟨[], by simp [← h.2], by simp⟩
    · simp at h
  | other =>
    intro p w b w1 h
    simp only [check_dir] at h
    split at h
    · simp only [Option.some.injEq, Prod.mk.injEq] at h
      exact ⟨[], by simp [← h.2], by simp⟩
    · simp at h
  | symlink t _ =>
    intro p w b w1 h
    simp only [check_dir] at h
    split at h
    · simp only [Option.some.injEq, Prod.mk.injEq] at h
      exact ⟨[], by simp [← h.2], by simp⟩
    · simp at h
  | dir entries ih =>
    intro p w b w1 h
    simp only [check_dir] at h
    split at h
    · simp only [Option.some.injEq, Prod.mk.injEq] at h
      exact ⟨[], by simp [← h.2], by simp⟩
    · cases hl : check_loop bl p entries ⟨0, ∅, false⟩ w with
      | none => rw [hl] at h; simp at h
      | some exit =>
        rw [hl] at h
        obtain ⟨ws, hws, hp⟩ := check_loop_warnings bl p entries ih _ w exit hl
        have below : ∀ x ∈ ws, p <+: x.1 := by
          intro x hx
          obtain ⟨name, s, hs⟩ := hp x hx
          exact ⟨name :: s, hs.symm⟩
        cases exit with
        | returned w0 =>
          simp only [Option.some.injEq, Prod.mk.injEq] at h
          exact ⟨ws, by rw [← h.2]; exact hws, below⟩
        | finished l w0 =>
          simp only [LoopExit.world] at hws
          simp only at h
          refine ⟨ws ++ (if l.dir_file_size.val > large_warning_size
            then [(p, l.dir_file_size)] else []), ?_, ?_⟩
          · split at h <;>
              simp only [Option.some.injEq, Prod.mk.injEq] at h <;>
              rw [← h.2] <;>
              simp only [warn_large_warnings, hws, List.append_assoc]
          · intro x hx
            rcases List.mem_append.1 hx with hx | hx
            · exact below x hx
            · split at hx
              · simp only [List.mem_singleton] at hx
                subst hx
                exact List.prefix_refl _
              · cases hx

/-- C16 (amended): a directory without mixed children (a sendable directory) is
classified without failure as sendable, whatever the size of its files:
`check_dir` returns `false`, adds nothing to `items` and adds the bytes of the
tree modulo `2^64`.  The warning for the directory itself is written exactly
when the sum of the sizes of its direct regular files, taken modulo `2^64`, is
more than 500000000: when that sum is below `2^64`, exactly when the sum is more
than 500000000.  The warning block changes nothing in the `BackupInfo`. -/
theorem c16_oversized_warning (bl : Finset Path) (p : Path) (entries : List (String × Node))
    (hs : sendable bl p (.dir entries) = true) :
    (∃ d, check_dir bl p (.dir entries) World.init = some (false, d) ∧
      d.bi.items = ∅ ∧ d.bi.total_filesize.val = treeBytes (.dir entries) % 2 ^ 64 ∧
      ((∃ size, (p, size) ∈ d.warnings) ↔ directBytes entries % 2 ^ 64 > 500000000) ∧
      (directBytes entries % 2 ^ 64 > 500000000 →
        (p, (directBytes entries : ULong)) ∈ d.warnings) ∧
      (directBytes entries < 2 ^ 64 →
        ((∃ size, (p, size) ∈ d.warnings) ↔ directBytes entries > 500000000))) ∧
    (∀ size w, (warn_large p size w).bi = w.bi) := by
  refine ⟨?_, fun size w => warn_large_bi p size w⟩
  obtain ⟨d, hd, hi, ht⟩ := check_dir_of_sendable bl _ p World.init hs
  have htv : d.bi.total_filesize.val = treeBytes (.dir entries) % 2 ^ 64 := by
    rw [ht]
    simp only [World.init, zero_add]
    exact ulong_val_cast _
  suffices hmain : ((∃ size, (p, size) ∈ d.warnings) ↔ directBytes entries % 2 ^ 64 > 500000000) ∧
      (directBytes entries % 2 ^ 64 > 500000000 →
        (p, (directBytes entries : ULong)) ∈ d.warnings) from
    ⟨d, hd, by simpa [World.init] using hi, htv, hmain.1, hmain.2,
      fun hlt => by
        have hiff := hmain.1
        rw [Nat.mod_eq_of_lt hlt] at hiff
        exact hiff⟩
  have hbl := sendable_not_blacklisted hs
  have hd' := hd
  simp only [check_dir, if_neg hbl] at hd'
  cases hl : check_loop bl p entries ⟨0, ∅, false⟩ World.init with
  | none => rw [hl] at hd'; simp at hd'
  | some exit =>
    rw [hl] at hd'
    cases exit with
    | returned w0 => simp at hd'
    | finished l w0 =>
      have hsize := check_loop_dir_file_size bl p entries _ l _ w0 hl
      simp only [zero_add] at hsize
      obtain ⟨ws, hws, hp⟩ := check_loop_warnings bl p entries
        (fun e _ => check_dir_warnings bl e.2) _ _ _ hl
      simp only [LoopExit.world, World.init, List.nil_append] at hws
      have hdw : d.warnings
          = ws ++ (if directBytes entries % 2 ^ 64 > large_warning_size
              then [(p, (directBytes entries : ULong))] else []) := by
        simp only at hd'
        split at hd' <;>
          simp only [Option.some.injEq, Prod.mk.injEq] at hd' <;>
          rw [← hd'.2] <;>
          simp only [warn_large_warnings, hws, hsize, ulong_val_cast]
      have hnot : ∀ size, (p, size) ∉ ws := by
        intro size hmem
        obtain ⟨name, s, hx⟩ := hp _ hmem
        have hlen := congrArg List.length hx
        simp at hlen
      have hlim : large_warning_size = 500000000 := rfl
      rw [hdw]
      constructor
      · constructor
        · rintro ⟨size, hmem⟩
          rcases List.mem_append.1 hmem with hmem | hmem
          · exact absurd hmem (hnot size)
          · split at hmem
            · rename_i hgt; rw [hlim] at hgt; exact hgt
            · cases hmem
        · intro hgt
          refine ⟨(directBytes entries : ULong), List.mem_append.2 (Or.inr ?_)⟩
          rw [if_pos (by rw [hlim]; exact hgt)]
          exact List.mem_singleton.2 rfl
      · intro hgt
        refine List.mem_append.2 (Or.inr ?_)
        rw [if_pos (by rw [hlim]; exact hgt)]
        exact List.mem_singleton.2 rfl

/-- C16, counterexample: a directory without mixed children whose direct regular
files have `2^63 - 1`, `2^63 - 1` and 2 bytes, `2^64` bytes together, is classified
sendable without any warning: the accumulated `unsigned long` is 0 when it is
compared with 500000000. -/
theorem c16_no_warning_after_wrap :
    sendable ∅ ["A"] (.dir (fileEntries wrap_files)) = true ∧
    directBytes (fileEntries wrap_files) = 18446744073709551616 ∧
    directBytes (fileEntries wrap_files) > 500000000 ∧
    ∃ d, check_dir ∅ ["A"] (.dir (fileEntries wrap_files)) World.init = some (false, d) ∧
      d.warnings = [] ∧ d.bi.total_filesize.val = 0 :=
  ⟨by decide, by decide, by decide, _, rfl, rfl, by decide⟩

/-- C16 at a directory `/A` with one file: 600000000 bytes give the warning,
500000000 bytes do not, and the directory is sendable both times. -/
theorem c16_oversized_warning_witness :
    (∃ d, check_dir ∅ ["A"] (.dir [("big", .file 600000000)]) World.init = some (false, d) ∧
      (["A"], 600000000) ∈ d.warnings) ∧
    (∃ d, check_dir ∅ ["A"] (.dir [("big", .file 500000000)]) World.init = some (false, d) ∧
      ¬ ∃ size, (["A"], size) ∈ d.warnings) := by
  constructor
  · obtain ⟨d, hd, _, _, _, himp, _⟩ :=
      (c16_oversized_warning ∅ ["A"] [("big", .file 600000000)] (by decide)).1
    exact ⟨d, hd, himp (by decide)⟩
  · obtain ⟨d, hd, _, _, _, _, hiff⟩ :=
      (c16_oversized_warning ∅ ["A"] [("big", .file 500000000)] (by decide)).1
    exact ⟨d, hd, fun hex => absurd ((hiff (by decide)).1 hex) (by decide)⟩

theorem sendableEntries_mem {bl : Finset Path} {p : Path} {entries : List (String × Node)}
    (h : sendableEntries bl p entries = true) {name : String} {sub : List (String × Node)}
    (hmem : (name, Node.dir sub) ∈ entries) :
    stem name ≠ ".git" ∧ sendable bl (p ++ [name]) (.dir sub) = true := by
  induction entries with
  | nil => cases hmem
  | cons e rest ih =>
    obtain ⟨n1, c1⟩ := e
    rcases List.mem_cons.1 hmem with he | hm
    · cases he
      simp only [sendableEntries, Bool.and_eq_true, decide_eq_true_eq] at h
      exact h.1
    · cases c1 <;> simp only [sendableEntries, Bool.and_eq_true] at h <;> exact ih h.2 hm

theorem sendable_entryAt (bl : Finset Path) (s : Path) : ∀ (p : Path) (n : Node)
    (sub : List (String × Node)), sendable bl p n = true → entryAt n s = some (.dir sub) →
    sendable bl (p ++ s) (.dir sub) = true := by
  induction s with
  | nil =>
    intro p n sub hs he
    simp only [entryAt, Option.some.injEq] at he
    subst he
    simpa using hs
  | cons name r ih =>
    intro p n sub hs he
    cases n with
    | file size => simp [entryAt] at he
    | other => simp [entryAt] at he
    | symlink t => simp [entryAt] at he
    | dir entries =>
      simp only [entryAt] at he
      cases hl : entries.lookup name with
      | none => rw [hl] at he; simp at he
      | some child =>
        rw [hl] at he
        simp only at he
        have hmem := mem_of_lookup hl
        simp only [sendable, Bool.and_eq_true, decide_eq_true_eq] at hs
        cases child with
        | file size => cases r <;> simp [entryAt] at he
        | other => cases r <;> simp [entryAt] at he
        | symlink t => cases r <;> simp [entryAt] at he
        | dir sub1 =>
          have := ih (p ++ [name]) (.dir sub1) sub (sendableEntries_mem hs.2 hmem).2 he
          simpa [List.append_assoc] using this

/-- C18: with pairwise different names in each directory, every directory in
`items` is not blacklisted, holds at no depth a blacklisted directory and holds
at no depth a directory with stem `.git`; and `check_dir` returns `false` only
for such directories. -/
theorem c18_directory_items_clean (fs : Node) (config : Config) (bl : Finset Path)
    (hwf : fs.wf = true) :
    (∀ bi, prepare_backup fs config = some bi →
      ∀ q entries, q ∈ bi.items → lookup fs q = some (.dir entries) →
        q ∉ config.blacklist ∧
        (∀ s sub, entryAt (.dir entries) s = some (.dir sub) → q ++ s ∉ config.blacklist) ∧
        hasGit (.dir entries) = false) ∧
    (∀ p n w w1, check_dir bl p n w = some (false, w1) →
      p ∉ bl ∧ (∀ s sub, entryAt n s = some (.dir sub) → p ++ s ∉ bl) ∧
      hasGit n = false) := by
  constructor
  · intro bi h q entries hq hl
    obtain ⟨src, _, ho⟩ := prepare_backup_items fs config bi h q hq
    have hs := ho.sendable_of_dir hwf entries hl
    exact ⟨sendable_not_blacklisted hs,
      fun s sub he => sendable_not_blacklisted (sendable_entryAt _ s q _ sub hs he),
      sendable_no_git _ _ _ hs⟩
  · intro p n w w1 h
    have hs := sendable_of_check_dir bl n p w w1 h
    exact ⟨sendable_not_blacklisted hs,
      fun s sub he => sendable_not_blacklisted (sendable_entryAt _ s p _ sub hs he),
      sendable_no_git _ _ _ hs⟩

/-- C18 at the scenario of C1: the directory item `/A/B` is clean. -/
theorem c18_directory_items_clean_witness :
    ∃ bi, prepare_backup c1_fs ⟨[["A"]], ["backup"], {["A", "C", "x"]}, "-a"⟩ = some bi ∧
      ["A", "B"] ∈ bi.items ∧
      ["A", "B"] ∉ ({["A", "C", "x"]} : Finset Path) ∧
      hasGit (.dir (fileEntries [("f", 400), ("g", 600)])) = false :=
  have h := (c18_directory_items_clean c1_fs ⟨[["A"]], ["backup"], {["A", "C", "x"]}, "-a"⟩
    ∅ (by decide)).1 _ rfl ["A", "B"] (fileEntries [("f", 400), ("g", 600)]) (by decide) rfl
  ⟨_, rfl, by decide, h.1, h.2.2⟩

/-- Two paths promoted by the same call: neither lies below the other. -/
theorem Promoted.no_nesting {bl : Finset Path} {p q1 q2 : Path} {n : Node}
    (h1 : Promoted bl p n q1) (h2 : Promoted bl p n q2) (hwf : n.wf = true)
    (hle : q1 <+: q2) : q1 = q2 := by
  obtain ⟨s, _, hq1, hk⟩ := h1.entry hwf
  obtain ⟨t, ht⟩ := hle
  by_cases htn : t = []
  · subst htn; simpa using ht
  · exfalso
    obtain ⟨es, he, hse⟩ := h2.ancestors hwf s t (by rw [← ht, hq1]) htn
    rcases hk with ⟨size, hf⟩ | ⟨sub, hd, hsd⟩
    · rw [hf] at he; cases he
    · rw [hd] at he
      cases he
      rw [← hq1, hsd] at hse
      cases hse

/-- C20: with pairwise different names in each directory and roots of which
none is another root or lies below one, no element of `items` is a proper
ancestor of another element; and one call of `check_dir` never inserts both a
path and a path below it. -/
theorem c20_items_antichain (fs : Node) (config : Config) (bl : Finset Path) :
    (fs.wf = true → unrelated config.srcs →
      ∀ bi, prepare_backup fs config = some bi →
        ∀ p q, p ∈ bi.items → q ∈ bi.items → p <+: q → p = q) ∧
    (∀ p n w b w1, n.wf = true → check_dir bl p n w = some (b, w1) →
      ∀ q1 q2, q1 ∈ w1.bi.items → q1 ∉ w.bi.items → q2 ∈ w1.bi.items → q2 ∉ w.bi.items →
        q1 <+: q2 → q1 = q2) := by
  constructor
  · intro hwf hun bi h p q hp hq hpq
    exact items_antichain fs config bi hwf hun h p q hp hq hpq
  · intro p n w b w1 hwf h q1 q2 h1 hn1 h2 hn2 hle
    rcases check_dir_items bl n p w b w1 h q1 h1 with hq1 | hq1
    · exact absurd hq1 hn1
    · rcases check_dir_items bl n p w b w1 h q2 h2 with hq2 | hq2
      · exact absurd hq2 hn2
      · exact hq1.no_nesting hq2 hwf hle

/-- C20 at the scenario of C1 with the second root `/D`, which is no directory. -/
theorem c20_items_antichain_witness :
    ∃ bi, prepare_backup c1_fs ⟨[["A"], ["D"]], ["backup"], {["A", "C", "x"]}, "-a"⟩ = some bi ∧
      ∀ p q, p ∈ bi.items → q ∈ bi.items → p <+: q → p = q :=
  ⟨_, rfl, (c20_items_antichain c1_fs ⟨[["A"], ["D"]], ["backup"], {["A", "C", "x"]}, "-a"⟩
    ∅).1 (by decide) (by unfold unrelated; decide) _ rfl⟩

/-- C12, at the failing input: `check_dir` on a directory with `.git` returns
`true`, but what it did for the entries enumerated before `.git` stays: the 10
bytes of `B` are in `total_filesize`, and `M/y` is in `items`.  With `.git`
enumerated first the state is unchanged. -/
theorem c12_git_after_sibling_keeps_effects :
    check_dir ∅ ["R"] (.dir git_last) World.init = some (true, ⟨⟨∅, 10⟩, []⟩) ∧
    check_dir ∅ ["R"] (.dir git_first) World.init = some (true, World.init) ∧
    ∃ w1, check_dir {["R", "M", "x"]} ["R"] (.dir git_after_mixed) World.init
        = some (true, w1) ∧ ["R", "M", "y"] ∈ w1.bi.items :=
  ⟨rfl, rfl, _, rfl, by decide⟩

/-- C13, at the failing input: the stem of `.git.bak` is `.git`, so a directory
with the child directory `.git.bak` makes `check_dir` return `true` at once,
where the same directory with the child named `git.bak` is classified as a whole
(11 bytes). -/
theorem c13_git_bak_triggers_rule :
    stem ".git.bak" = ".git" ∧ stem ".git.old" = ".git" ∧ stem ".git" = ".git" ∧
    check_dir ∅ ["R"] (.dir [(".git.bak", .dir [("x", .file 1)]), ("f", .file 10)]) World.init
      = some (true, World.init) ∧
    check_dir ∅ ["R"] (.dir [("git.bak", .dir [("x", .file 1)]), ("f", .file 10)]) World.init
      = some (false, ⟨⟨∅, 11⟩, []⟩) :=
  ⟨by decide, by decide, by decide, rfl, rfl⟩

/-- C19, at the failing input: the root `/R` holds `B` (10 bytes) and `.git`;
enumerated as `B`, `.git` the run gives `total_filesize = 10`, enumerated as
`.git`, `B` it gives 0. -/
theorem c19_order_changes_total :
    prepare_backup (.dir [("R", .dir git_last)]) ⟨[["R"]], ["backup"], ∅, "-a"⟩
      = some ⟨∅, 10⟩ ∧
    prepare_backup (.dir [("R", .dir git_first)]) ⟨[["R"]], ["backup"], ∅, "-a"⟩
      = some ⟨∅, 0⟩ ∧
    git_last.Perm git_first :=
  ⟨rfl, rfl, List.Perm.swap _ _ _⟩

theorem check_loop_calls (bl : Finset Path) (path : Path) (entries : List (String × Node))
    (l : Locals) (w : World) (l1 : Locals) (w1 : World)
    (h : check_loop bl path entries l w = some (.finished l1 w1)) :
    w.bi.items ⊆ w1.bi.items ∧ l.send_dirs ⊆ l1.send_dirs ∧
    (l.mixed_flag = true → l1.mixed_flag = true) ∧
    ∀ name sub, (name, Node.dir sub) ∈ entries →
      stem name ≠ ".git" ∧
      ∃ wa b wb, check_dir bl (path ++ [name]) (.dir sub) wa = some (b, wb) ∧
        wb.bi.items ⊆ w1.bi.items ∧
        (b = false → path ++ [name] ∈ l1.send_dirs) ∧
        (b = true → l1.mixed_flag = true) := by
  induction entries generalizing l w with
  | nil =>
    simp only [check_loop, Option.some.injEq, LoopExit.finished.injEq] at h
    obtain ⟨rfl, rfl⟩ := h
    exact ⟨Finset.Subset.refl _, Finset.Subset.refl _, id, fun _ _ hm => by cases hm⟩
  | cons e rest ihr =>
    obtain ⟨name, c⟩ := e
    have skip : ∀ l0, check_loop bl path rest l0 w = some (.finished l1 w1) →
        l.send_dirs ⊆ l0.send_dirs → (l.mixed_flag = true → l0.mixed_flag = true) →
        (∀ sub, c ≠ Node.dir sub) →
        w.bi.items ⊆ w1.bi.items ∧ l.send_dirs ⊆ l1.send_dirs ∧
        (l.mixed_flag = true → l1.mixed_flag = true) ∧
        ∀ name1 sub, (name1, Node.dir sub) ∈ (name, c) :: rest →
          stem name1 ≠ ".git" ∧
          ∃ wa b wb, check_dir bl (path ++ [name1]) (.dir sub) wa = some (b, wb) ∧
            wb.bi.items ⊆ w1.bi.items ∧
            (b = false → path ++ [name1] ∈ l1.send_dirs) ∧
            (b = true → l1.mixed_flag = true) := by
      intro l0 h0 hsd hmx hnd
      obtain ⟨h1, h2, h3, h4⟩ := ihr l0 w h0
      refine ⟨h1, hsd.trans h2, fun hm => h3 (hmx hm), ?_⟩
      intro name1 sub hm
      rcases List.mem_cons.1 hm with he | hm1
      · cases he
        exact absurd rfl (hnd sub)
      · exact h4 name1 sub hm1
    cases c with
    | file size =>
      simp only [check_loop] at h
      exact skip _ h (Finset.Subset.refl _) id (fun sub hEq => by cases hEq)
    | other => simp [check_loop] at h
    | symlink t =>
      simp only [check_loop] at h
      exact skip _ h (Finset.Subset.refl _) id (fun sub hEq => by cases hEq)
    | dir sub =>
      simp only [check_loop] at h
      split at h
      · simp at h
      · rename_i hgit
        cases hc : check_dir bl (path ++ [name]) (.dir sub) w with
        | none => rw [hc] at h; simp at h
        | some r =>
          obtain ⟨b, w0⟩ := r
          rw [hc] at h
          have hmono := check_dir_items_mono bl _ _ _ _ _ hc
          cases b with
          | true =>
            simp only at h
            obtain ⟨h1, h2, h3, h4⟩ := ihr _ w0 h
            refine ⟨hmono.trans h1, h2, fun _ => h3 rfl, ?_⟩
            intro name1 sub1 hm
            rcases List.mem_cons.1 hm with he | hm1
            · cases he
              refine ⟨hgit, w, true, w0, hc, h1, ?_, ?_⟩
              · intro hb; cases hb
              · intro _; exact h3 rfl
            · exact h4 name1 sub1 hm1
          | false =>
            simp only at h
            obtain ⟨h1, h2, h3, h4⟩ := ihr _ w0 h
            refine ⟨hmono.trans h1, (Finset.subset_insert _ _).trans h2, h3, ?_⟩
            intro name1 sub1 hm
            rcases List.mem_cons.1 hm with he | hm1
            · cases he
              refine ⟨hgit, w, false, w0, hc, h1, ?_, ?_⟩
              · intro _; exact h2 (Finset.mem_insert_self _ _)
              · intro hb; cases hb
            · exact h4 name1 sub1 hm1

/-- C15, counterexample: the child `/A/C` is not sendable (it holds the
blacklisted `/A/C/x`); `/A` becomes mixed, but `/A/C` is not inserted into
`items`: the sendable child `/A/B` and the file `/A/C/y` are. -/
theorem c15_mixed_child_not_inserted :
    ∃ w1, check_dir {["A", "C", "x"]} ["A"] (.dir c15_dir) World.init = some (true, w1) ∧
      (check_dir {["A", "C", "x"]} ["A", "C"] (.dir [("x", .dir []), ("y", .file 5)])
        World.init).map Prod.fst = some true ∧
      ["A", "C"] ∉ w1.bi.items ∧ ["A", "B"] ∈ w1.bi.items ∧ ["A", "C", "y"] ∈ w1.bi.items :=
  ⟨_, rfl, rfl, by decide, by decide, by decide⟩

/-- C15, amended: when the loop of `check_dir` runs to the end, a child directory
that is not sendable (its call returns `true`) makes the enclosing directory
mixed and its own path is not inserted into `items`; a child directory that is
sendable (its call returns `false`) is remembered in `send_dirs` and its path is
inserted into `items` when the enclosing directory ends mixed, and nothing is
inserted when it does not. -/
theorem c15_promotion_of_sendable_children (bl : Finset Path) (p : Path)
    (entries : List (String × Node)) (w : World) (l : Locals) (w0 : World) (b : Bool)
    (w1 : World) (hwf : (Node.dir entries).wf = true) (hbl : p ∉ bl)
    (hloop : check_loop bl p entries ⟨0, ∅, false⟩ w = some (.finished l w0))
    (h : check_dir bl p (.dir entries) w = some (b, w1)) :
    ∀ name sub, (name, Node.dir sub) ∈ entries →
      (sendable bl (p ++ [name]) (.dir sub) = false →
        l.mixed_flag = true ∧ b = true ∧
        (p ++ [name] ∈ w1.bi.items → p ++ [name] ∈ w.bi.items)) ∧
      (sendable bl (p ++ [name]) (.dir sub) = true →
        p ++ [name] ∈ l.send_dirs ∧
        (l.mixed_flag = true → b = true ∧ p ++ [name] ∈ w1.bi.items) ∧
        (l.mixed_flag = false → b = false ∧ w1.bi.items = w.bi.items)) := by
  intro name sub hmem
  obtain ⟨_, _, _, hcalls⟩ := check_loop_calls bl p entries _ w l w0 hloop
  obtain ⟨_, wa, b1, wb, hc, _, hsend, hmix⟩ := hcalls name sub hmem
  have hres := h
  simp only [check_dir, if_neg hbl, hloop] at hres
  constructor
  · intro hns
    have hb1 : b1 = true := by
      cases b1 with
      | true => rfl
      | false =>
        have := sendable_of_check_dir bl _ _ _ _ hc
        rw [hns] at this
        cases this
    have hm := hmix hb1
    rw [hm] at hres
    simp only [if_true, Option.some.injEq, Prod.mk.injEq] at hres
    refine ⟨hm, hres.1.symm, ?_⟩
    intro hin
    rcases check_dir_items bl _ p w b w1 h _ hin with h1 | h1
    · exact h1
    · exfalso
      obtain ⟨s, _, hq, hk⟩ := h1.entry hwf
      have hs : s = [name] := (List.append_cancel_left hq).symm
      subst hs
      rw [entryAt_child hwf hmem] at hk
      simp only [entryAt, Option.some.injEq] at hk
      rcases hk with ⟨size, hf⟩ | ⟨sub1, hd, hsd⟩
      · cases hf
      · cases hd
        rw [hns] at hsd
        cases hsd
  · intro hs
    have hb1 : b1 = false := by
      cases b1 with
      | false => rfl
      | true =>
        have := check_dir_true_not_sendable bl _ _ _ _ hc
        rw [hs] at this
        cases this
    refine ⟨hsend hb1, ?_, ?_⟩
    · intro hm
      rw [hm] at hres
      simp only [if_true, Option.some.injEq, Prod.mk.injEq] at hres
      refine ⟨hres.1.symm, ?_⟩
      rw [← hres.2]
      simp only [Finset.mem_union]
      exact Or.inl (Or.inr (hsend hb1))
    · intro hm
      rw [hm] at hres
      simp only [Bool.false_eq_true, if_false, Option.some.injEq, Prod.mk.injEq] at hres
      have hb : b = false := hres.1.symm
      subst hb
      exact ⟨rfl, (check_dir_false_items bl _ _ _ _ h).1⟩

/-- C15 amended, at the directory of the counterexample. -/
theorem c15_promotion_of_sendable_children_witness :
    ∃ w1, check_dir {["A", "C", "x"]} ["A"] (.dir c15_dir) World.init = some (true, w1) ∧
      (["A", "C"] ∈ w1.bi.items → ["A", "C"] ∈ World.init.bi.items) ∧
      ["A", "B"] ∈ w1.bi.items :=
  have h := c15_promotion_of_sendable_children {["A", "C", "x"]} ["A"] c15_dir World.init
    ⟨0, {["A", "B"]}, true⟩ _ true _ (by decide) (by decide) rfl rfl
  ⟨_, rfl,
    ((h "C" [("x", .dir []), ("y", .file 5)] (by simp [c15_dir])).1 (by decide)).2.2,
    (((h "B" [("f", .file 10)] (by simp [c15_dir])).2 (by decide)).2.1 rfl).2⟩

theorem check_loop_finishes (bl : Finset Path) (path : Path) (entries : List (String × Node))
    (hgit : ∀ n sub, (n, Node.dir sub) ∈ entries → stem n ≠ ".git")
    (l : Locals) (w : World) (exit : LoopExit)
    (h : check_loop bl path entries l w = some exit) :
    ∃ l1 w1, exit = .finished l1 w1 := by
  induction entries generalizing l w with
  | nil =>
    simp only [check_loop, Option.some.injEq] at h
    exact ⟨l, w, h.symm⟩
  | cons e rest ihr =>
    obtain ⟨name, c⟩ := e
    have ihr1 := ihr (fun n sub hm => hgit n sub (List.mem_cons_of_mem _ hm))
    cases c with
    | file size => simp only [check_loop] at h; exact ihr1 _ _ h
    | other => simp [check_loop] at h
    | symlink t => simp only [check_loop] at h; exact ihr1 _ _ h
    | dir sub =>
      simp only [check_loop, if_neg (hgit name sub (List.mem_cons_self _ _))] at h
      cases hc : check_dir bl (path ++ [name]) (.dir sub) w with
      | none => rw [hc] at h; simp at h
      | some r =>
        obtain ⟨b, w0⟩ := r
        rw [hc] at h
        cases b with
        | true => exact ihr1 _ _ h
        | false => exact ihr1 _ _ h

/-- A call of `check_dir` on a directory either returns `false` or has put into
`items` every eligible file below the directory or one of its ancestors below
the directory. -/
theorem check_dir_covers {bl : Finset Path} {p s : Path} {n : Node}
    (he : Eligible bl p n s) : ∀ (w : World) (b : Bool) (w1 : World),
    check_dir bl p n w = some (b, w1) →
    b = false ∨ ∃ t, t ≠ [] ∧ t <+: s ∧ p ++ t ∈ w1.bi.items := by
  induction he with
  | @here path entries name size hbl hgit hmem =>
    intro w b w1 h
    simp only [check_dir, if_neg hbl] at h
    cases hl : check_loop bl path entries ⟨0, ∅, false⟩ w with
    | none => rw [hl] at h; simp at h
    | some exit =>
      obtain ⟨l1, w0, rfl⟩ := check_loop_finishes bl path entries hgit _ _ _ hl
      rw [hl] at h
      simp only at h
      split at h
      · simp only [Option.some.injEq, Prod.mk.injEq] at h
        right
        refine ⟨[name], by simp, List.prefix_refl _, ?_⟩
        rw [← h.2]
        simp only [Finset.mem_union]
        exact Or.inr ((mem_regular_files path entries _).2 ⟨name, size, hmem, rfl⟩)
      · simp only [Option.some.injEq, Prod.mk.injEq] at h
        exact Or.inl h.1.symm
  | @step path entries name sub s hbl hgit hmem _ ih =>
    intro w b w1 h
    simp only [check_dir, if_neg hbl] at h
    cases hl : check_loop bl path entries ⟨0, ∅, false⟩ w with
    | none => rw [hl] at h; simp at h
    | some exit =>
      obtain ⟨l1, w0, rfl⟩ := check_loop_finishes bl path entries hgit _ _ _ hl
      rw [hl] at h
      obtain ⟨_, _, _, hcalls⟩ := check_loop_calls bl path entries _ w l1 w0 hl
      obtain ⟨_, wa, b1, wb, hc, hsub, hsend, _⟩ := hcalls name sub hmem
      simp only at h
      split at h
      · simp only [Option.some.injEq, Prod.mk.injEq] at h
        right
        rcases ih wa b1 wb hc with hb1 | ⟨t, ht, hts, hin⟩
        · refine ⟨[name], by simp, ?_, ?_⟩
          · exact ⟨s, rfl⟩
          · rw [← h.2]
            simp only [Finset.mem_union]
            exact Or.inl (Or.inr (hsend hb1))
        · refine ⟨name :: t, by simp, ?_, ?_⟩
          · obtain ⟨r, hr⟩ := hts
            exact ⟨r, by rw [← hr]; rfl⟩
          · rw [← h.2]
            simp only [warn_large_bi, Finset.mem_union]
            refine Or.inl (Or.inl (hsub ?_))
            simpa [List.append_assoc] using hin
      · simp only [Option.some.injEq, Prod.mk.injEq] at h
        exact Or.inl h.1.symm

theorem prepare_loop_step (fs : Node) (bl : Finset Path) (srcs : List Path) (w w1 : World)
    (h : prepare_loop fs bl srcs w = some w1) (src : Path) (hsrc : src ∈ srcs) :
    ∃ wa wb, prepare_step fs bl src wa = some wb ∧ wb.bi.items ⊆ w1.bi.items := by
  induction srcs generalizing w with
  | nil => cases hsrc
  | cons r rest ih =>
    simp only [prepare_loop] at h
    cases hs : prepare_step fs bl r w with
    | none => rw [hs] at h; simp at h
    | some w0 =>
      rw [hs] at h
      rcases List.mem_cons.1 hsrc with he | hm
      · subst he
        exact ⟨w, w0, hs, prepare_loop_mono fs bl rest w0 w1 h⟩
      · exact ih w0 h hm

/-- C17: every regular file that is reached from a root directory through
directories of which none, the root included, is blacklisted or has a child
directory with stem `.git` is covered by `items`: its own path or the path of
one of its ancestors down from the root is an element of `items`. -/
theorem c17_eligible_files_covered (fs : Node) (config : Config) (bi : BackupInfo)
    (R : Path) (entries : List (String × Node)) (s : Path)
    (h : prepare_backup fs config = some bi) (hR : R ∈ config.srcs)
    (hdir : lookup fs R = some (.dir entries))
    (he : Eligible config.blacklist R (.dir entries) s) :
    ∃ t, t <+: s ∧ R ++ t ∈ bi.items := by
  unfold prepare_backup at h
  cases hl : prepare_loop fs config.blacklist config.srcs World.init with
  | none => rw [hl] at h; simp at h
  | some w1 =>
    rw [hl] at h
    simp only [Option.map_some', Option.some.injEq] at h
    subst h
    obtain ⟨wa, wb, hs, hsub⟩ := prepare_loop_step fs _ _ _ _ hl R hR
    simp only [prepare_step, hdir] at hs
    cases hc : check_dir config.blacklist R (.dir entries) wa with
    | none => rw [hc] at hs; simp at hs
    | some r =>
      obtain ⟨b, w0⟩ := r
      rw [hc] at hs
      rcases check_dir_covers he wa b w0 hc with hb | ⟨t, _, hts, hin⟩
      · subst hb
        simp only [Option.some.injEq] at hs
        subst hs
        exact ⟨[], List.nil_prefix, by simpa using hsub (Finset.mem_insert_self _ _)⟩
      · cases b with
        | true =>
          simp only [Option.some.injEq] at hs
          subst hs
          exact ⟨t, hts, hsub hin⟩
        | false =>
          simp only [Option.some.injEq] at hs
          subst hs
          exact ⟨t, hts, hsub (Finset.mem_insert_of_mem hin)⟩

/-- C17 at the scenario of C1: the file `/A/B/f` is covered by the item `/A/B`
and the file `/A/C/y` is an item itself. -/
theorem c17_eligible_files_covered_witness :
    ∃ bi, prepare_backup c1_fs ⟨[["A"]], ["backup"], {["A", "C", "x"]}, "-a"⟩ = some bi ∧
      (∃ t, t <+: ["B", "f"] ∧ ["A"] ++ t ∈ bi.items) ∧
      (∃ t, t <+: ["C", "y"] ∧ ["A"] ++ t ∈ bi.items) :=
  have nogit : ∀ (es : List (String × Node)),
      (∀ e ∈ es, stem e.1 ≠ ".git") →
      ∀ n sub, (n, Node.dir sub) ∈ es → stem n ≠ ".git" :=
    fun _ hall n sub hm => hall (n, .dir sub) hm
  ⟨_, rfl,
    c17_eligible_files_covered c1_fs ⟨[["A"]], ["backup"], {["A", "C", "x"]}, "-a"⟩ _
      ["A"] _ ["B", "f"] rfl (by decide) rfl
      (Eligible.step (by decide) (nogit _ (by decide)) (List.mem_cons_self _ _)
        (Eligible.here (by decide) (nogit _ (by decide)) (List.mem_cons_self _ _))),
    c17_eligible_files_covered c1_fs ⟨[["A"]], ["backup"], {["A", "C", "x"]}, "-a"⟩ _
      ["A"] _ ["C", "y"] rfl (by decide) rfl
      (Eligible.step (by decide) (nogit _ (by decide))
        (List.mem_cons_of_mem _ (List.mem_cons_self _ _))
        (Eligible.here (by decide) (nogit _ (by decide))
          (List.mem_cons_of_mem _ (List.mem_cons_self _ _))))⟩

end RsyncBackup
